import Mathlib

/-!
Verification of the query-safety gate and metadata cache of the
`epicor-mcp` repository (files `db.py` and `metadata.py`).

The Python code is shallowly embedded: SQL text is a `List Char`, the
regular-expression passes of `_strip_comments`, `_validate_readonly` and
`_inject_top` are single-pass character scanners equivalent to the regexes
used by the source (`--[^\n]*`, `/\*.*?\*/` non-greedy, `\b(KW|...)\b`
case-insensitive, `\bTOP\s+\d+`, `\bSELECT\b`), with the character classes
`\w`, `\s`, `\d` and case folding read at their ASCII meaning.
-/

namespace EpicorMCP

/-- Word character in the sense of the regex class `\w` (ASCII reading):
letters, digits and underscore. -/
def isWordChar (c : Char) : Bool :=
  (97 ≤ c.toNat && c.toNat ≤ 122) || (65 ≤ c.toNat && c.toNat ≤ 90) ||
    (48 ≤ c.toNat && c.toNat ≤ 57) || c.toNat = 95

/-- Whitespace character in the sense of the regex class `\s` (ASCII reading)
and of Python `str.strip`. -/
def isSpaceChar (c : Char) : Bool :=
  c.toNat = 32 || c.toNat = 9 || c.toNat = 10 || c.toNat = 13 ||
    c.toNat = 11 || c.toNat = 12

/-- Decimal digit, the regex class `\d` (ASCII reading). -/
def isDigitChar (c : Char) : Bool :=
  48 ≤ c.toNat && c.toNat ≤ 57

/-- ASCII upper-casing, modelling Python `str.upper` / `re.IGNORECASE`
folding on the ASCII range. -/
def upChar (c : Char) : Char :=
  if 97 ≤ c.toNat && c.toNat ≤ 122 then Char.ofNat (c.toNat - 32) else c

/-- Boundary test used for `\b`: the position before a character `c` (or the
start/end of the string, `none`) is a word boundary for a word starting or
ending there iff the adjacent character is not a word character. -/
def boundaryB : Option Char → Bool
  | none => true
  | some c => !(isWordChar c)

/-! ### `_strip_comments` (db.py lines 62-68)

`re.sub(r"--[^\n]*", "", sql)` followed by
`re.sub(r"/\*.*?\*/", "", sql, flags=re.DOTALL)`.
Each substitution is implemented as a left-to-right scanner removing each
(leftmost, and for the block pattern shortest) match and continuing after
it, exactly as `re.sub` does. -/

/-- Scanner state of the line-comment pass: outside a comment, just after a
single `-`, or inside a `--` comment. -/
inductive LCState | norm | dash | comm
deriving DecidableEq

/-- Line-comment stripping scanner, equivalent to
`re.sub(r"--[^\n]*", "", s)`: every `--` and the rest of its line is
removed, the terminating newline is kept. -/
def slGo : LCState → List Char → List Char
  | .norm, [] => []
  | .dash, [] => ['-']
  | .comm, [] => []
  | .norm, c :: rest => if c = '-' then slGo .dash rest else c :: slGo .norm rest
  | .dash, c :: rest => if c = '-' then slGo .comm rest else '-' :: c :: slGo .norm rest
  | .comm, c :: rest => if c = '\n' then c :: slGo .norm rest else slGo .comm rest

/-- Python `re.sub(r"--[^\n]*", "", sql)`. -/
def stripLineComments (s : List Char) : List Char := slGo .norm s

/-- Scanner state of the block-comment pass: outside, just after `/`,
inside `/*` (pending text kept in an accumulator in case the comment is
never terminated), inside just after a `*`. -/
inductive BCState | norm | slash | inC | inCStar
deriving DecidableEq

/-- Block-comment stripping scanner, equivalent to
`re.sub(r"/\*.*?\*/", "", s, flags=re.DOTALL)`: each leftmost `/*` is
removed together with everything up to the nearest following `*/`; a `/*`
with no later `*/` is left in place (the accumulator `acc` holds the
pending characters, reversed, and is emitted verbatim at end of input). -/
def sbGo : BCState → List Char → List Char → List Char
  | .norm, _, [] => []
  | .slash, _, [] => ['/']
  | .inC, acc, [] => acc.reverse
  | .inCStar, acc, [] => acc.reverse
  | .norm, acc, c :: rest =>
      if c = '/' then sbGo .slash acc rest else c :: sbGo .norm acc rest
  | .slash, acc, c :: rest =>
      if c = '*' then sbGo .inC ['*', '/'] rest
      else if c = '/' then '/' :: sbGo .slash acc rest
      else '/' :: c :: sbGo .norm acc rest
  | .inC, acc, c :: rest =>
      if c = '*' then sbGo .inCStar (c :: acc) rest else sbGo .inC (c :: acc) rest
  | .inCStar, acc, c :: rest =>
      if c = '/' then sbGo .norm [] rest
      else if c = '*' then sbGo .inCStar (c :: acc) rest
      else sbGo .inC (c :: acc) rest

/-- Python `re.sub(r"/\*.*?\*/", "", sql, flags=re.DOTALL)`. -/
def stripBlockComments (s : List Char) : List Char := sbGo .norm [] s

/-- The helper `_strip_comments` of db.py: line comments are removed first,
then block comments. -/
def stripComments (s : List Char) : List Char :=
  stripBlockComments (stripLineComments s)

/-! ### `_validate_readonly` (db.py lines 24-32, 220-229) -/

/-- The fixed denylist `_BLOCKED_KEYWORDS` of db.py. -/
def blockedKeywords : List (List Char) :=
  ["INSERT".toList, "UPDATE".toList, "DELETE".toList, "DROP".toList,
   "CREATE".toList, "ALTER".toList, "TRUNCATE".toList, "EXEC".toList,
   "EXECUTE".toList, "GRANT".toList, "REVOKE".toList, "MERGE".toList]

/-- Case-insensitive prefix match of an (upper-case) keyword against text. -/
def ciMatchKw : List Char → List Char → Bool
  | [], _ => true
  | _ :: _, [] => false
  | k :: ks, c :: cs => (upChar c = k) && ciMatchKw ks cs

/-- Attempt to match one denylisted keyword at the current position, with
`\b` on both sides (`prev` is the character before the position).  On
success, returns the matched text (`match.group()`). -/
def tryKwAt (prev : Option Char) (s : List Char) (k : List Char) : Option (List Char) :=
  if boundaryB prev && ciMatchKw k s && boundaryB (s.drop k.length).head? then
    some (s.take k.length)
  else none

/-- Try the keyword alternatives at one position, in the denylist's order,
as the regex alternation `\b(INSERT|UPDATE|...)\b` does. -/
def firstKwAt (prev : Option Char) (s : List Char) : List (List Char) → Option (List Char)
  | [] => none
  | k :: ks =>
    match tryKwAt prev s k with
    | some m => some m
    | none => firstKwAt prev s ks

/-- Leftmost whole-word, case-insensitive occurrence of a denylisted
keyword: `_BLOCKED_PATTERN.search`. -/
def scanBlocked : Option Char → List Char → Option (List Char)
  | _, [] => none
  | prev, c :: rest =>
    match firstKwAt prev (c :: rest) blockedKeywords with
    | some m => some m
    | none => scanBlocked (some c) rest

/-- The static method `_validate_readonly` of db.py: strip comments, then
search the stripped copy for a denylisted keyword.  `some m` models the
`ValueError` naming the matched keyword `m`; `none` means the query
passes. -/
def validateReadonly (sql : List Char) : Option (List Char) :=
  scanBlocked none (stripComments sql)

/-! ### Specification-side comment lexer

Used only to state the claim "keyword outside / only inside comments" as
written.  A `--` comment runs to the end of its line; a `/*` opens a block
comment only when a matching `*/` follows (an unterminated `/*` is plain
text, matching the claim's `/* */` wording); inside a block comment `--`
is inert and vice versa.  Each input character is marked `true` when it is
part of a comment. -/

/-- Check whether the text contains a `*/` pair. -/
def hasCloseMark : List Char → Bool
  | [] => false
  | '*' :: '/' :: _ => true
  | _ :: rest => hasCloseMark rest

/-- Lexer state for the specification-side comment mask. -/
inductive MState | mnorm | mline | mblock
deriving DecidableEq

/-- Comment mask of a SQL text under proper (SQL-style, non-nested) comment
lexing: position `i` is `true` iff character `i` lies in a `--` line
comment or a terminated `/* */` block comment. -/
def maskStep : MState → List Char → List Bool
  | _, [] => []
  | .mnorm, '-' :: '-' :: rest => true :: true :: maskStep .mline rest
  | .mnorm, '/' :: '*' :: rest =>
      if hasCloseMark rest then true :: true :: maskStep .mblock rest
      else false :: false :: maskStep .mnorm rest
  | .mnorm, _ :: rest => false :: maskStep .mnorm rest
  | .mline, c :: rest =>
      if c = '\n' then false :: maskStep .mnorm rest else true :: maskStep .mline rest
  | .mblock, '*' :: '/' :: rest => true :: true :: maskStep .mnorm rest
  | .mblock, _ :: rest => true :: maskStep .mblock rest

/-- Comment mask of a SQL text, starting outside any comment. -/
def commentMask (s : List Char) : List Bool := maskStep .mnorm s

/-- Whole-word, case-insensitive occurrence of keyword `k` at position `i`
of `s` (word boundaries taken in the original text). -/
def kwOccursAt (s : List Char) (i : Nat) (k : List Char) : Bool :=
  boundaryB (s.take i).getLast? && ciMatchKw k (s.drop i) &&
    boundaryB ((s.drop i).drop k.length).head?

/-- All of positions `i ≤ j < i + len` of the mask carry value `b`. -/
def maskAll (mask : List Bool) (i len : Nat) (b : Bool) : Bool :=
  ((mask.drop i).take len).all (· = b)

/-- The SQL text has a whole-word denylisted-keyword occurrence lying
entirely outside comments. -/
def specKwOutsideComments (s : List Char) : Bool :=
  (List.range s.length).any fun i =>
    blockedKeywords.any fun k =>
      kwOccursAt s i k && maskAll (commentMask s) i k.length false

/-- Every whole-word denylisted-keyword occurrence of the SQL text lies
entirely inside a comment. -/
def specKwOnlyInComments (s : List Char) : Bool :=
  (List.range s.length).all fun i =>
    blockedKeywords.all fun k =>
      !(kwOccursAt s i k) || maskAll (commentMask s) i k.length true

/-! ### `_inject_top` (db.py lines 231-261) -/

/-- Python `str.strip()` (ASCII whitespace reading): drop leading and
trailing whitespace. -/
def pyStrip (s : List Char) : List Char :=
  List.rdropWhile isSpaceChar (List.dropWhile isSpaceChar s)

/-- Decimal rendering of a natural number, as Python `str` / an f-string
does (fuel-based so that it computes by kernel reduction). -/
def natStrGo : Nat → Nat → List Char
  | 0, _ => []
  | fuel + 1, n =>
    if n < 10 then [Char.ofNat (48 + n)]
    else natStrGo fuel (n / 10) ++ [Char.ofNat (48 + n % 10)]

/-- Decimal rendering of a natural number. -/
def natStr (n : Nat) : List Char := natStrGo (n + 1) n

/-- The text `f" TOP {maxRows}"` inserted by `_inject_top`. -/
def topIns (maxRows : Nat) : List Char :=
  ' ' :: 'T' :: 'O' :: 'P' :: ' ' :: natStr maxRows

/-- After at least one whitespace character comes a digit: the regex tail
`\s+\d+`. -/
def afterSpacesDigit : List Char → Bool
  | [] => false
  | c :: rest => if isSpaceChar c then afterSpacesDigit rest else isDigitChar c

/-- Match of `\bTOP\s+\d+` (case-insensitive) at the current position. -/
def matchTopAt (prev : Option Char) (s : List Char) : Bool :=
  boundaryB prev &&
    (match s with
     | t :: o :: p :: rest =>
       (upChar t = 'T') && (upChar o = 'O') && (upChar p = 'P') &&
         (match rest with
          | [] => false
          | c :: rest2 => isSpaceChar c && afterSpacesDigit rest2)
     | _ => false)

/-- Search for `\bTOP\s+\d+` anywhere: `re.search` over all positions. -/
def scanTop : Option Char → List Char → Bool
  | _, [] => false
  | prev, c :: rest => matchTopAt prev (c :: rest) || scanTop (some c) rest

/-- Whether the statement already carries an explicit `TOP n`. -/
def hasTopNum (s : List Char) : Bool := scanTop none s

/-- Python `stripped.upper().startswith("WITH")`. -/
def startsWithWITH : List Char → Bool
  | w :: i :: t :: h :: _ =>
    (upChar w = 'W') && (upChar i = 'I') && (upChar t = 'T') && (upChar h = 'H')
  | _ => false

/-- The keyword `SELECT`. -/
def selKw : List Char := "SELECT".toList

/-- Match of `\bSELECT\b` (case-insensitive) at the current position. -/
def matchSelectAt (prev : Option Char) (s : List Char) : Bool :=
  boundaryB prev && ciMatchKw selKw s && boundaryB ((s.drop 6).head?)

/-- End positions (`match.end()`) of every `\bSELECT\b` match, in order of
position: `re.finditer(r"\bSELECT\b", ...)`.  `i` is the index of the
current position in the full text. -/
def selectEndsGo (prev : Option Char) (i : Nat) : List Char → List Nat
  | [] => []
  | c :: rest =>
    (if matchSelectAt prev (c :: rest) then [i + 6] else []) ++
      selectEndsGo (some c) (i + 1) rest

/-- End positions of every `\bSELECT\b` match of the whole text. -/
def selectEnds (s : List Char) : List Nat := selectEndsGo none 0 s

/-- The static method `_inject_top` of db.py. -/
def injectTop (sql : List Char) (maxRows : Nat) : List Char :=
  let stripped := pyStrip sql
  if hasTopNum stripped then sql
  else if startsWithWITH stripped then
    match (selectEnds stripped).getLast? with
    | some pos => stripped.take pos ++ topIns maxRows ++ stripped.drop pos
    | none => sql
  else if matchSelectAt none stripped then
    stripped.take 6 ++ topIns maxRows ++ stripped.drop 6
  else sql

/-- The SQL text that `execute` (db.py lines 144-167) sends to the cursor:
`none` when `_validate_readonly` raises, otherwise the statement with the
row cap injected when `max_rows > 0` (clamped to `ABSOLUTE_MAX_ROWS`). -/
def executeSentSql (sql : List Char) (maxRows : Nat) : Option (List Char) :=
  match validateReadonly sql with
  | some _ => none
  | none => some (if 0 < maxRows then injectTop sql (min maxRows 10000) else sql)

/-! ### Segment decomposition of SQL text

Used to state what `_validate_readonly` does on SQL made of code
interleaved with comments: a list of segments, each either plain code, a
`--` line comment (terminated by its newline) or a terminated `/* */`
block comment, rendered by concatenation. -/

/-- Check whether the text contains the two characters `a`, `b` adjacently. -/
def hasPair (a b : Char) : List Char → Bool
  | [] => false
  | c :: rest => (c = a && rest.head? = some b) || hasPair a b rest

/-- One segment of a SQL text: code, a `--` line comment with text `t`
(rendered `--t` followed by a newline), or a `/* */` block comment with
text `b` (rendered `/*b*/`). -/
inductive SqlSeg
  | code (c : List Char)
  | lineComment (t : List Char)
  | blockComment (b : List Char)

/-- Concrete text of one segment. -/
def renderSeg : SqlSeg → List Char
  | .code c => c
  | .lineComment t => '-' :: '-' :: (t ++ ['\n'])
  | .blockComment b => '/' :: '*' :: (b ++ ['*', '/'])

/-- Concrete text of a segment list. -/
def renderSql (segs : List SqlSeg) : List Char := (segs.map renderSeg).flatten

/-- Per-segment well-formedness: code contains no comment delimiters (`--`
would start a comment, `/*` would open one), line-comment text contains no
newline, block-comment text contains no `--` and no `*/`. -/
def segOk : SqlSeg → Bool
  | .code c => !c.isEmpty && !hasPair '-' '-' c && !hasPair '/' '*' c
  | .lineComment t => decide ('\n' ∉ t)
  | .blockComment b => !hasPair '-' '-' b && !hasPair '*' '/' b

/-- Constraints on two consecutive segments: adjacent code segments are
merged into one (so never adjacent here); code does not end in `-` right
before a line comment (the `-` would be absorbed into the `--` marker);
block comments are delimited by non-word characters on both sides (so
that deleting them neither merges nor splits words). -/
def segPairOk : SqlSeg → SqlSeg → Bool
  | .code _, .code _ => false
  | .code c, .lineComment _ => !(c.getLastD ' ' = '-')
  | .code c, .blockComment _ => !isWordChar (c.getLastD ' ')
  | .blockComment _, .code c => !isWordChar (c.headD ' ')
  | _, _ => true

/-- Well-formed segment list: every segment and every consecutive pair ok. -/
def wfSegs : List SqlSeg → Bool
  | [] => true
  | s :: rest =>
    segOk s &&
      (match rest.head? with
       | some s2 => segPairOk s s2
       | none => true) &&
      wfSegs rest

/-- Per-segment residue after full comment stripping. -/
def strippedSeg : SqlSeg → List Char
  | .code c => c
  | .lineComment _ => ['\n']
  | .blockComment _ => []

/-- Residue of a segment list after full comment stripping. -/
def strippedRender (segs : List SqlSeg) : List Char := (segs.map strippedSeg).flatten

/-- Per-segment residue after the line-comment pass only. -/
def midSeg : SqlSeg → List Char
  | .code c => c
  | .lineComment _ => ['\n']
  | .blockComment b => '/' :: '*' :: (b ++ ['*', '/'])

/-- Residue of a segment list after the line-comment pass only. -/
def midRender (segs : List SqlSeg) : List Char := (segs.map midSeg).flatten

/-- Whether a segment is code containing a whole-word denylisted keyword. -/
def segHasKw : SqlSeg → Bool
  | .code c => (scanBlocked none c).isSome
  | _ => false

/-- Whether a segment list starts with a line comment (the one entry
character that neutralises a word character just before it). -/
def headIsLine : List SqlSeg → Bool
  | SqlSeg.lineComment _ :: _ => true
  | _ => false

/-! ### `_execute_with_retry` (db.py lines 181-216)

The statement execution itself is abstracted by an oracle giving the
outcome of each attempt; the reconnect performed between the two attempts
is modelled as succeeding.  `attempts` and `reconnects` count the cursor
executions and `_reconnect()` calls the code performs. -/

/-- Outcome of one cursor execution of the statement: success with a
result set, a connection-class exception (`pytds.ClosedConnectionError`,
`OSError`, `ConnectionError`), or any other exception (syntax error,
permission error, ...).  `cause` identifies the underlying exception. -/
inductive AttemptOutcome
  | ok (cols : List String) (rows : Nat)
  | connErr (cause : Nat)
  | otherErr (cause : Nat)
deriving DecidableEq

/-- Observable outcome of `_execute_with_retry`. -/
inductive ExecOutcome
  | success (cols : List String) (rows : Nat)
  | wrappedConnFailure (cause : Nat)
  | immediateError (cause : Nat)
deriving DecidableEq

/-- Result of `_execute_with_retry` together with the number of cursor
executions and reconnects performed. -/
structure ExecTrace where
  outcome : ExecOutcome
  attempts : Nat
  reconnects : Nat
deriving DecidableEq

/-- The `for attempt in range(2)` loop of `_execute_with_retry`: on a
connection-class error at attempt 0, reconnect and retry; at attempt 1,
raise `RuntimeError` wrapping the cause; any other exception propagates
immediately.  The empty-list case models the unreachable
`return [], []` after the loop. -/
def retryGo (oracle : Nat → AttemptOutcome) (att rec : Nat) : List Nat → ExecTrace
  | [] => ⟨.success [] 0, att, rec⟩
  | attempt :: rest =>
    match oracle attempt with
    | .ok cols rows => ⟨.success cols rows, att + 1, rec⟩
    | .otherErr e => ⟨.immediateError e, att + 1, rec⟩
    | .connErr e =>
      if attempt = 0 then retryGo oracle (att + 1) (rec + 1) rest
      else ⟨.wrappedConnFailure e, att + 1, rec⟩

/-- The method `_execute_with_retry` of db.py. -/
def executeWithRetry (oracle : Nat → AttemptOutcome) : ExecTrace :=
  retryGo oracle 0 0 [0, 1]

/-! ### `ensure_loaded` / `_load` (metadata.py lines 96-117)

Interleaving model of two logical callers running `ensure_loaded`.  Each
caller's execution is the atomic-step sequence: read the `_loaded` flag
(returning immediately when set, otherwise entering `_load`, which bumps
the load-count probe), load tables, load foreign keys, build adjacency,
set the `_loaded` flag.  There is no lock in the source, so steps of the
two callers may interleave arbitrarily. -/

/-- Atomic steps of one `ensure_loaded()` call. -/
inductive LoadStep
  | checkFlag
  | ldTables
  | ldFKs
  | buildAdj
  | setFlag
deriving DecidableEq

/-- The step sequence of `ensure_loaded()`. -/
def ensureLoadedProg : List LoadStep :=
  [.checkFlag, .ldTables, .ldFKs, .buildAdj, .setFlag]

/-- Shared state of the metadata cache as seen by the load protocol. -/
structure CacheFlags where
  loaded : Bool
  tablesPopulated : Bool
  fksPopulated : Bool
  adjPopulated : Bool
  loadCount : Nat
deriving DecidableEq

/-- Initial state: nothing loaded. -/
def initCacheFlags : CacheFlags := ⟨false, false, false, false, 0⟩

/-- One atomic step of one caller: returns the new shared state and the
caller's remaining steps. -/
def stepThread (s : CacheFlags) : List LoadStep → CacheFlags × List LoadStep
  | [] => (s, [])
  | .checkFlag :: rest =>
    if s.loaded then (s, []) else ({ s with loadCount := s.loadCount + 1 }, rest)
  | .ldTables :: rest => ({ s with tablesPopulated := true }, rest)
  | .ldFKs :: rest => ({ s with fksPopulated := true }, rest)
  | .buildAdj :: rest => ({ s with adjPopulated := true }, rest)
  | .setFlag :: rest => ({ s with loaded := true }, rest)

/-- Run two callers under a schedule (`false` steps caller 0, `true`
steps caller 1). -/
def runSched (s : CacheFlags) (t0 t1 : List LoadStep) : List Bool → CacheFlags
  | [] => s
  | false :: sch =>
    let r := stepThread s t0
    runSched r.1 r.2 t1 sch
  | true :: sch =>
    let r := stepThread s t1
    runSched r.1 t0 r.2 sch

/-! ### Metadata cache data model (metadata.py)

Python `dict`s are association lists in insertion order with in-place
value replacement; `defaultdict(list)` multimaps append; the
`defaultdict(set)` adjacency keeps each neighbour list duplicate-free. -/

/-- Python `dict.get`. -/
def dictGet {α : Type} (m : List (String × α)) (k : String) : Option α :=
  match m.find? (fun p => p.1 = k) with
  | some p => some p.2
  | none => none

/-- Python `dict` assignment `m[k] = v`: replace in place, or append. -/
def dictPut {α : Type} (m : List (String × α)) (k : String) (v : α) : List (String × α) :=
  match m with
  | [] => [(k, v)]
  | (k2, v2) :: rest =>
    if k2 = k then (k, v) :: rest else (k2, v2) :: dictPut rest k v

/-- Update the value at an existing key in place. -/
def dictModify {α : Type} (m : List (String × α)) (k : String) (f : α → α) :
    List (String × α) :=
  match m with
  | [] => []
  | (k2, v2) :: rest =>
    if k2 = k then (k2, f v2) :: rest else (k2, v2) :: dictModify rest k f

/-- Python `defaultdict(list)`: `m[k].append(v)`. -/
def mmAppend {α : Type} (m : List (String × List α)) (k : String) (v : α) :
    List (String × List α) :=
  match m with
  | [] => [(k, [v])]
  | (k2, vs) :: rest =>
    if k2 = k then (k2, vs ++ [v]) :: rest else (k2, vs) :: mmAppend rest k v

/-- Lookup in a multimap, with `[]` for an absent key (`m.get(k, [])`). -/
def mmGet {α : Type} (m : List (String × List α)) (k : String) : List α :=
  (dictGet m k).getD []

/-- Python `defaultdict(set)`: `m[k].add(v)` (no duplicates). -/
def adjAdd (m : List (String × List String)) (k v : String) :
    List (String × List String) :=
  match m with
  | [] => [(k, [v])]
  | (k2, vs) :: rest =>
    if k2 = k then (k2, if v ∈ vs then vs else vs ++ [v]) :: rest
    else (k2, vs) :: adjAdd rest k v

/-- The dataclass `TableInfo` of metadata.py. -/
structure TableInfo where
  schema : String
  name : String
  tableType : String
deriving DecidableEq

/-- The derived field `full_name = f"{schema}.{name}"`. -/
def TableInfo.fullName (t : TableInfo) : String := t.schema ++ "." ++ t.name

/-- The dataclass `ForeignKey` of metadata.py. -/
structure ForeignKey where
  fkName : String
  parentSchema : String
  parentTable : String
  childSchema : String
  childTable : String
  columns : List (String × String)
deriving DecidableEq

/-- The property `parent_full`. -/
def ForeignKey.parentFull (fk : ForeignKey) : String :=
  fk.parentSchema ++ "." ++ fk.parentTable

/-- The property `child_full`. -/
def ForeignKey.childFull (fk : ForeignKey) : String :=
  fk.childSchema ++ "." ++ fk.childTable

/-- The in-memory structures of `MetadataCache` populated by `_load`. -/
structure MetadataCache where
  tables : List (String × TableInfo)
  tablesByName : List (String × List TableInfo)
  tablesBySchema : List (String × List TableInfo)
  fks : List ForeignKey
  fksByParent : List (String × List ForeignKey)
  fksByChild : List (String × List ForeignKey)
  adjacency : List (String × List String)

/-- One catalog row of `_load_tables`: (schema, name, table type). -/
structure TableRow where
  schema : String
  name : String
  ttype : String
deriving DecidableEq

/-- The loop body of `_load_tables` over one catalog row. -/
def loadTableRow (acc : List (String × TableInfo) × List (String × List TableInfo) ×
    List (String × List TableInfo)) (r : TableRow) :
    List (String × TableInfo) × List (String × List TableInfo) ×
      List (String × List TableInfo) :=
  let info : TableInfo := ⟨r.schema, r.name, r.ttype⟩
  (dictPut acc.1 info.fullName info,
   mmAppend acc.2.1 r.name info,
   mmAppend acc.2.2 r.schema info)

/-- The method `_load_tables`, as a function of the catalog rows. -/
def loadTables (rows : List TableRow) :
    List (String × TableInfo) × List (String × List TableInfo) ×
      List (String × List TableInfo) :=
  rows.foldl loadTableRow ([], [], [])

/-- One catalog row of `_load_foreign_keys`:
(FK name, parent schema/table/column, child schema/table/column). -/
structure FkRow where
  fkName : String
  ps : String
  pt : String
  pc : String
  cs : String
  ct : String
  cc : String
deriving DecidableEq

/-- The loop body of `_load_foreign_keys` over one catalog row: create the
`ForeignKey` on first sight of the constraint name, then append the
column pair. -/
def loadFkRow (m : List (String × ForeignKey)) (r : FkRow) :
    List (String × ForeignKey) :=
  let m2 :=
    if (dictGet m r.fkName).isSome then m
    else m ++ [(r.fkName, ⟨r.fkName, r.ps, r.pt, r.cs, r.ct, []⟩)]
  dictModify m2 r.fkName (fun fk => { fk with columns := fk.columns ++ [(r.pc, r.cc)] })

/-- The grouped foreign keys of `_load_foreign_keys`
(`list(fk_map.values())`). -/
def loadForeignKeys (rows : List FkRow) : List ForeignKey :=
  (rows.foldl loadFkRow []).map (fun p => p.2)

/-- The per-parent index built at the end of `_load_foreign_keys`. -/
def buildFksByParent (fks : List ForeignKey) : List (String × List ForeignKey) :=
  fks.foldl (fun m fk => mmAppend m fk.parentFull fk) []

/-- The per-child index built at the end of `_load_foreign_keys`. -/
def buildFksByChild (fks : List ForeignKey) : List (String × List ForeignKey) :=
  fks.foldl (fun m fk => mmAppend m fk.childFull fk) []

/-- The method `_build_adjacency`: add both directions of every edge. -/
def buildAdjacency (fks : List ForeignKey) : List (String × List String) :=
  fks.foldl (fun adj fk => adjAdd (adjAdd adj fk.parentFull fk.childFull)
    fk.childFull fk.parentFull) []

/-- The method `_load`, as a function of the two catalog result sets. -/
def loadCache (tableRows : List TableRow) (fkRows : List FkRow) : MetadataCache :=
  let t := loadTables tableRows
  let fks := loadForeignKeys fkRows
  ⟨t.1, t.2.1, t.2.2, fks, buildFksByParent fks, buildFksByChild fks,
    buildAdjacency fks⟩

/-- The method `resolve_table` of metadata.py.  A provided empty schema
string is falsy in Python (`if schema:`), hence treated like an absent
schema. -/
def resolveTable (cache : MetadataCache) (name : String) (schema : Option String) :
    Option TableInfo :=
  match schema with
  | some s =>
    if s.isEmpty then
      match dictGet cache.tables ("Erp." ++ name) with
      | some t => some t
      | none => (mmGet cache.tablesByName name).head?
    else dictGet cache.tables (s ++ "." ++ name)
  | none =>
    match dictGet cache.tables ("Erp." ++ name) with
    | some t => some t
    | none => (mmGet cache.tablesByName name).head?

/-- The method `get_relationships` of metadata.py. -/
def getRelationships (cache : MetadataCache) (table : String)
    (schema : Option String) (direction : String) : List ForeignKey :=
  match resolveTable cache table schema with
  | none => []
  | some info =>
    (if direction = "parent" || direction = "both" then
      mmGet cache.fksByParent info.fullName
    else []) ++
    (if direction = "child" || direction = "both" then
      mmGet cache.fksByChild info.fullName
    else [])

/-- Neighbour lookup `self._adjacency.get(current, set())` (set iteration
modelled by list order). -/
def adjGet (adj : List (String × List String)) (k : String) : List String :=
  (dictGet adj k).getD []

/-- The `for neighbor in self._adjacency.get(current, set())` loop body of
`find_join_path`: record a completed path when the neighbour is the target,
skip visited neighbours, otherwise mark visited and enqueue. -/
def bfsExpand (pth : List String) (depth : Nat) (endT : String) :
    List String → List (List String × Nat) → List String → List (List String) →
      List (List String × Nat) × List String × List (List String)
  | [], q, vis, ps => (q, vis, ps)
  | nb :: rest, q, vis, ps =>
    if nb = endT then bfsExpand pth depth endT rest q vis (ps ++ [pth ++ [nb]])
    else if nb ∈ vis then bfsExpand pth depth endT rest q vis ps
    else bfsExpand pth depth endT rest (q ++ [(pth ++ [nb], depth + 1)])
      (nb :: vis) ps

/-- The `while queue:` loop of `find_join_path`.  `fuel` bounds the number
of iterations; `bfsFuel` below is provably sufficient, making this exactly
the source's loop. -/
def bfsLoop (adj : List (String × List String)) (endT : String) (maxDepth : Nat) :
    Nat → List (List String × Nat) → List String → List (List String) →
      List (List String)
  | 0, _, _, ps => ps
  | _ + 1, [], _, ps => ps
  | fuel + 1, (pth, depth) :: rest, vis, ps =>
    if maxDepth ≤ depth then bfsLoop adj endT maxDepth fuel rest vis ps
    else
      let t := bfsExpand pth depth endT (adjGet adj (pth.getLastD "")) rest vis ps
      bfsLoop adj endT maxDepth fuel t.1 t.2.1 t.2.2

/-- Iteration bound for `bfsLoop`: one more than the total number of
neighbour occurrences in the adjacency map (every enqueue after the first
marks a previously unvisited neighbour, so the loop pops at most this many
entries). -/
def bfsFuel (adj : List (String × List String)) : Nat :=
  1 + ((adj.map (fun p => p.2)).flatten).length

/-- The BFS of `find_join_path`, from resolved start and target full
names. -/
def bfsPaths (adj : List (String × List String)) (start endT : String)
    (maxDepth : Nat) : List (List String) :=
  (bfsLoop adj endT maxDepth (bfsFuel adj) [([start], 0)] [start] []).take 10

/-- The method `find_join_path` of metadata.py. -/
def findJoinPath (cache : MetadataCache) (fromTable toTable : String)
    (fromSchema toSchema : Option String) (maxDepth : Nat) : List (List String) :=
  match resolveTable cache fromTable fromSchema,
      resolveTable cache toTable toSchema with
  | some src, some dst =>
    if src.fullName = dst.fullName then [[src.fullName]]
    else bfsPaths cache.adjacency src.fullName dst.fullName maxDepth
  | _, _ => []

/-- Chain predicate: consecutive tables of the list are graph-adjacent
(`b ∈ adjacency[a]`). -/
def chainOk (adj : List (String × List String)) : List String → Bool
  | [] => true
  | [_] => true
  | a :: rest =>
    (match rest.head? with
     | some b => decide (b ∈ adjGet adj a)
     | none => true) && chainOk adj rest

/-- Join path from `start` to `endT` in the adjacency graph, with
`p.length - 1` edges. -/
def isJoinPath (adj : List (String × List String)) (start endT : String)
    (p : List String) : Bool :=
  !p.isEmpty && p.head? = some start && p.getLast? = some endT && chainOk adj p

/-- Identifier without a literal dot, so that `schema ++ "." ++ name` full
names decompose uniquely. -/
def dotFree (s : String) : Bool := decide ('.' ∉ s.data)

/-- The character just before the position reached after scanning `u`,
when the character before `u` was `prev`. -/
def lastOr (prev : Option Char) (u : List Char) : Option Char :=
  match u.getLast? with
  | some c => some c
  | none => prev

/-- Position `p` of `s` is the end position (`match.end()`) of a
whole-word, case-insensitive `SELECT` match. -/
def isSelectEnd (s : List Char) (p : Nat) : Bool :=
  6 ≤ p && matchSelectAt (lastOr none (s.take (p - 6))) (s.drop (p - 6))

/-- Number of distinct adjacency-map neighbours not yet visited: the
quantity that shrinks with every enqueue of `bfsExpand`, justifying
`bfsFuel`. -/
def unvisitedCount (adj : List (String × List String)) (vis : List String) : Nat :=
  ((((adj.map (fun p => p.2)).flatten).dedup).filter
    (fun v => decide (v ∉ vis))).length

/-- Invariant of one `find_join_path` queue entry: a path starting at
`start`, chained in the graph, avoiding `endT`, one node longer than its
recorded depth. -/
def entryOk (adj : List (String × List String)) (start endT : String)
    (e : List String × Nat) : Prop :=
  e.1.head? = some start ∧ chainOk adj e.1 = true ∧ endT ∉ e.1 ∧
    e.1.length = e.2 + 1

/-- Invariant of one recorded path of `find_join_path`: a join path of at
most `k` edges. -/
def recOk (adj : List (String × List String)) (start endT : String) (k : Nat)
    (r : List String) : Prop :=
  isJoinPath adj start endT r = true ∧ r.length ≤ k + 1

/-- Tables of the three-table join example: `Erp.A`, `Erp.B`, `Erp.C`. -/
def c6Tables : List TableRow :=
  [⟨"Erp", "A", "T"⟩, ⟨"Erp", "B", "T"⟩, ⟨"Erp", "C", "T"⟩]

/-- Foreign keys of the example: `A`–`C` and `C`–`B`. -/
def c6Fks : List FkRow :=
  [⟨"FK1", "Erp", "A", "x", "Erp", "C", "y"⟩,
   ⟨"FK2", "Erp", "C", "u", "Erp", "B", "v"⟩]

/-! ## Theorems -/

/-! ### C2: concurrency of `ensure_loaded` -/

/-- C2: `ensure_loaded` guards `_load` only by the `_loaded` flag, which is
read at entry and set at the very end of `_load`, with no lock.  Under the
interleaving in which both callers read the flag before either load
completes, the catalog load body runs twice (`loadCount = 2`), and after
the second caller has passed the check while the first is mid-load, the
cache is observably partially populated (`tablesPopulated` without
`loaded`).  A fully serialized schedule does load exactly once. -/
theorem ensureLoaded_concurrent_double_load :
    (runSched initCacheFlags ensureLoadedProg ensureLoadedProg
      [false, true, false, false, false, false, true, true, true, true]).loadCount = 2 ∧
    (runSched initCacheFlags ensureLoadedProg ensureLoadedProg
      [false, true, false, false]).tablesPopulated = true ∧
    (runSched initCacheFlags ensureLoadedProg ensureLoadedProg
      [false, true, false, false]).loaded = false ∧
    (runSched initCacheFlags ensureLoadedProg ensureLoadedProg
      [false, false, false, false, false, true]).loadCount = 1 := by
  decide

/-! ### C3: retry policy of `_execute_with_retry` -/

/-- C3: a connection-class failure at the first attempt triggers exactly
one reconnect and one retry of the same statement; a second consecutive
connection-class failure raises the wrapping `RuntimeError` with no third
attempt; a non-connection failure surfaces immediately with no retry and
no reconnect; and no call ever makes more than two attempts or more than
one reconnect. -/
theorem executeWithRetry_policy (oracle : Nat → AttemptOutcome)
    (cols : List String) (rows e1 e2 e : Nat) :
    ((executeWithRetry oracle).attempts ≤ 2 ∧
      (executeWithRetry oracle).reconnects ≤ 1) ∧
    (oracle 0 = .connErr e1 → oracle 1 = .ok cols rows →
      executeWithRetry oracle = ⟨.success cols rows, 2, 1⟩) ∧
    (oracle 0 = .connErr e1 → oracle 1 = .connErr e2 →
      executeWithRetry oracle = ⟨.wrappedConnFailure e2, 2, 1⟩) ∧
    (oracle 0 = .otherErr e → executeWithRetry oracle = ⟨.immediateError e, 1, 0⟩) ∧
    (oracle 0 = .connErr e1 → oracle 1 = .otherErr e →
      executeWithRetry oracle = ⟨.immediateError e, 2, 1⟩) := by
  unfold executeWithRetry
  rcases h0 : oracle 0 <;> rcases h1 : oracle 1 <;>
    simp [retryGo, h0, h1]

/-- Witness for C3 at a concrete oracle: the first attempt hits a
connection error, the retry succeeds. -/
theorem executeWithRetry_policy_witness :
    (fun n => if n = 0 then AttemptOutcome.connErr 7 else .ok ["c"] 3) 0 =
        AttemptOutcome.connErr 7 ∧
      executeWithRetry (fun n => if n = 0 then AttemptOutcome.connErr 7 else .ok ["c"] 3) =
        ⟨.success ["c"] 3, 2, 1⟩ :=
  ⟨by decide,
    (executeWithRetry_policy
      (fun n => if n = 0 then AttemptOutcome.connErr 7 else .ok ["c"] 3)
      ["c"] 3 7 0 0).2.1 (by decide) (by decide)⟩

/-! ### C9: a `TOP` anywhere in the statement suppresses injection -/

/-- C9: whenever the (whitespace-stripped) statement matches
`\bTOP\s+\d+` anywhere — including inside a CTE body or a nested
subquery — `execute` with a positive row cap performs no injection and
sends the statement through unmodified, so the outermost `SELECT` is not
capped. -/
theorem execute_top_anywhere_skips_injection (sql : List Char) (maxRows : Nat)
    (hv : validateReadonly sql = none) (hm : 0 < maxRows)
    (ht : hasTopNum (pyStrip sql) = true) :
    executeSentSql sql maxRows = some sql := by
  unfold executeSentSql injectTop
  rw [hv]
  simp [ht, hm]

/-- Witness for C9: the only `TOP` is inside the CTE body, yet the outer
`SELECT` of the statement is left uncapped. -/
theorem execute_top_anywhere_skips_injection_witness :
    validateReadonly "WITH c AS (SELECT TOP 5 x FROM t) SELECT x FROM c".toList = none ∧
      0 < 100 ∧
      hasTopNum (pyStrip "WITH c AS (SELECT TOP 5 x FROM t) SELECT x FROM c".toList) = true ∧
      executeSentSql "WITH c AS (SELECT TOP 5 x FROM t) SELECT x FROM c".toList 100 =
        some "WITH c AS (SELECT TOP 5 x FROM t) SELECT x FROM c".toList :=
  ⟨by decide, by decide, by decide,
    execute_top_anywhere_skips_injection
      "WITH c AS (SELECT TOP 5 x FROM t) SELECT x FROM c".toList 100
      (by decide) (by decide) (by decide)⟩

/-! ### C7: symmetry of the adjacency map -/

theorem adjGet_cons (k3 : String) (vs : List String)
    (rest : List (String × List String)) (k : String) :
    adjGet ((k3, vs) :: rest) k = if k3 = k then vs else adjGet rest k := by
  by_cases h : k3 = k <;> simp [adjGet, dictGet, List.find?, h]

theorem adjGet_adjAdd_self (m : List (String × List String)) (k v : String) :
    v ∈ adjGet (adjAdd m k v) k := by
  induction m with
  | nil => simp [adjAdd, adjGet_cons]
  | cons p rest ih =>
    obtain ⟨k2, vs⟩ := p
    by_cases h : k2 = k
    · by_cases hv : v ∈ vs <;> simp [adjAdd, adjGet_cons, h, hv]
    · simpa [adjAdd, adjGet_cons, h] using ih

theorem adjGet_adjAdd_mono (m : List (String × List String)) (k k2 v x : String)
    (h : x ∈ adjGet m k) : x ∈ adjGet (adjAdd m k2 v) k := by
  induction m with
  | nil => simp [adjGet, dictGet] at h
  | cons p rest ih =>
    obtain ⟨k3, vs⟩ := p
    rw [adjGet_cons] at h
    by_cases h3 : k3 = k2
    · by_cases hk : k3 = k
      · rw [if_pos hk] at h
        by_cases hv : v ∈ vs <;>
          simp_all [adjAdd, adjGet_cons]
      · rw [if_neg hk] at h
        have hk2 : ¬(k2 = k) := h3 ▸ hk
        simp [adjAdd, adjGet_cons, h3, hk, hk2, h]
    · by_cases hk : k3 = k
      · rw [if_pos hk] at h
        have hk2 : ¬(k = k2) := hk ▸ h3
        simp [adjAdd, adjGet_cons, h3, hk, hk2, h]
      · rw [if_neg hk] at h
        simp [adjAdd, adjGet_cons, h3, hk, ih h]

theorem adjGet_foldl_mono (fks : List ForeignKey) (m : List (String × List String))
    (k x : String) (h : x ∈ adjGet m k) :
    x ∈ adjGet (fks.foldl (fun adj fk => adjAdd (adjAdd adj fk.parentFull fk.childFull)
      fk.childFull fk.parentFull) m) k := by
  induction fks generalizing m with
  | nil => simpa using h
  | cons fk rest ih =>
    exact ih _ (adjGet_adjAdd_mono _ _ _ _ _ (adjGet_adjAdd_mono _ _ _ _ _ h))

/-- C7: after the load, the adjacency map is symmetric: for every
foreign-key edge, the child's full name is among the parent's neighbours
and the parent's full name is among the child's neighbours. -/
theorem buildAdjacency_symmetric (fks : List ForeignKey) (fk : ForeignKey)
    (h : fk ∈ fks) :
    fk.childFull ∈ adjGet (buildAdjacency fks) fk.parentFull ∧
      fk.parentFull ∈ adjGet (buildAdjacency fks) fk.childFull := by
  unfold buildAdjacency
  generalize hm : ([] : List (String × List String)) = m
  clear hm
  induction fks generalizing m with
  | nil => cases h
  | cons g rest ih =>
    rcases List.mem_cons.mp h with hg | hmem
    · subst hg
      simp only [List.foldl_cons]
      constructor
      · exact adjGet_foldl_mono rest _ _ _
          (adjGet_adjAdd_mono _ _ _ _ _ (adjGet_adjAdd_self _ _ _))
      · exact adjGet_foldl_mono rest _ _ _ (adjGet_adjAdd_self _ _ _)
    · exact ih hmem _

/-- Witness for C7 at a single concrete edge. -/
theorem buildAdjacency_symmetric_witness :
    (⟨"FK1", "Erp", "A", "Erp", "B", [("x", "y")]⟩ : ForeignKey) ∈
        [(⟨"FK1", "Erp", "A", "Erp", "B", [("x", "y")]⟩ : ForeignKey)] ∧
      "Erp.B" ∈ adjGet (buildAdjacency [⟨"FK1", "Erp", "A", "Erp", "B", [("x", "y")]⟩])
          "Erp.A" ∧
      "Erp.A" ∈ adjGet (buildAdjacency [⟨"FK1", "Erp", "A", "Erp", "B", [("x", "y")]⟩])
          "Erp.B" := by
  refine ⟨by decide, ?_⟩
  have := buildAdjacency_symmetric [⟨"FK1", "Erp", "A", "Erp", "B", [("x", "y")]⟩]
    ⟨"FK1", "Erp", "A", "Erp", "B", [("x", "y")]⟩ (by decide)
  exact this

/-! ### C10: unresolvable tables yield empty results, not errors -/

/-- C10: when a table name fails to resolve, `find_join_path` (with the
unresolvable name in either position) and `get_relationships` return the
empty list rather than raising, indistinguishable from a known table with
no paths or relationships. -/
theorem unresolved_table_empty_results (cache : MetadataCache) (name otherTable : String)
    (schema otherSchema : Option String) (direction : String) (maxDepth : Nat)
    (h : resolveTable cache name schema = none) :
    findJoinPath cache name otherTable schema otherSchema maxDepth = [] ∧
      findJoinPath cache otherTable name otherSchema schema maxDepth = [] ∧
      getRelationships cache name schema direction = [] := by
  refine ⟨?_, ?_, ?_⟩
  · unfold findJoinPath
    rw [h]
  · unfold findJoinPath
    rw [h]
    rcases resolveTable cache otherTable otherSchema <;> rfl
  · unfold getRelationships
    rw [h]

/-- Witness for C10 on a concrete cache without the requested table. -/
theorem unresolved_table_empty_results_witness :
    resolveTable (loadCache [⟨"Erp", "A", "BASE TABLE"⟩] []) "Zzz" none = none ∧
      findJoinPath (loadCache [⟨"Erp", "A", "BASE TABLE"⟩] []) "Zzz" "A" none none 3 = [] ∧
      findJoinPath (loadCache [⟨"Erp", "A", "BASE TABLE"⟩] []) "A" "Zzz" none none 3 = [] ∧
      getRelationships (loadCache [⟨"Erp", "A", "BASE TABLE"⟩] []) "Zzz" none "both" = [] := by
  refine ⟨by decide, ?_⟩
  have := unresolved_table_empty_results (loadCache [⟨"Erp", "A", "BASE TABLE"⟩] [])
    "Zzz" "A" none none "both" 3 (by decide)
  exact ⟨this.1, this.2.1, this.2.2⟩

/-! ### C8: default-schema preference of `resolve_table` -/

theorem dictGet_dictPut {α : Type} (m : List (String × α)) (k k2 : String) (v : α) :
    dictGet (dictPut m k v) k2 = if k = k2 then some v else dictGet m k2 := by
  induction m with
  | nil => by_cases h : k = k2 <;> simp [dictPut, dictGet, List.find?, h]
  | cons p rest ih =>
    obtain ⟨k3, v3⟩ := p
    by_cases h3 : k3 = k
    · subst h3
      by_cases h : k3 = k2 <;> simp [dictPut, dictGet, List.find?, h]
    · by_cases h : k3 = k2
      · subst h
        have hne : ¬(k = k3) := fun hh => h3 hh.symm
        simp [dictPut, h3, dictGet, List.find?, hne]
      · simp [dictPut, h3, dictGet, List.find?, h] at ih ⊢
        exact ih

theorem mmGet_mmAppend {α : Type} (m : List (String × List α)) (k k2 : String) (v : α) :
    mmGet (mmAppend m k v) k2 =
      if k = k2 then mmGet m k2 ++ [v] else mmGet m k2 := by
  induction m with
  | nil => by_cases h : k = k2 <;> simp [mmAppend, mmGet, dictGet, List.find?, h]
  | cons p rest ih =>
    obtain ⟨k3, v3⟩ := p
    by_cases h3 : k3 = k
    · subst h3
      by_cases h : k3 = k2 <;> simp [mmAppend, mmGet, dictGet, List.find?, h]
    · by_cases h : k3 = k2
      · subst h
        have hne : ¬(k = k3) := fun hh => h3 hh.symm
        simp [mmAppend, h3, mmGet, dictGet, List.find?, hne]
      · simp [mmAppend, h3, mmGet, dictGet, List.find?, h] at ih ⊢
        exact ih

/-- The key under which `_load_tables` indexes a catalog row. -/
theorem loadTables_fst (rows : List TableRow)
    (acc : List (String × TableInfo) × List (String × List TableInfo) ×
      List (String × List TableInfo)) :
    (rows.foldl loadTableRow acc).1 =
      rows.foldl
        (fun m r => dictPut m (r.schema ++ "." ++ r.name) ⟨r.schema, r.name, r.ttype⟩)
        acc.1 := by
  induction rows generalizing acc with
  | nil => rfl
  | cons r rest ih => exact ih _

theorem loadTables_byName (rows : List TableRow)
    (acc : List (String × TableInfo) × List (String × List TableInfo) ×
      List (String × List TableInfo)) :
    (rows.foldl loadTableRow acc).2.1 =
      rows.foldl
        (fun m r => mmAppend m r.name (⟨r.schema, r.name, r.ttype⟩ : TableInfo))
        acc.2.1 := by
  induction rows generalizing acc with
  | nil => rfl
  | cons r rest ih => exact ih _

theorem dictGet_foldl_put (rows : List TableRow) (t : List (String × TableInfo))
    (k : String) :
    dictGet (rows.foldl
        (fun m r => dictPut m (r.schema ++ "." ++ r.name) ⟨r.schema, r.name, r.ttype⟩) t)
      k =
      match rows.reverse.find? (fun r => r.schema ++ "." ++ r.name = k) with
      | some r => some ⟨r.schema, r.name, r.ttype⟩
      | none => dictGet t k := by
  induction rows generalizing t with
  | nil => rfl
  | cons r rest ih =>
    simp only [List.foldl_cons, List.reverse_cons, List.find?_append]
    rw [ih]
    cases hfind : rest.reverse.find? (fun r => r.schema ++ "." ++ r.name = k) with
    | none =>
      simp only [hfind, Option.none_or]
      by_cases h : r.schema ++ "." ++ r.name = k
      · simp [List.find?, h, dictGet_dictPut]
      · simp [List.find?, h, dictGet_dictPut]
    | some r2 => simp [hfind, Option.or]

theorem mmGet_foldl_append (rows : List TableRow)
    (bn : List (String × List TableInfo)) (k : String) :
    mmGet (rows.foldl
        (fun m r => mmAppend m r.name (⟨r.schema, r.name, r.ttype⟩ : TableInfo)) bn) k =
      mmGet bn k ++
        (rows.filter (fun r => r.name = k)).map
          (fun r => (⟨r.schema, r.name, r.ttype⟩ : TableInfo)) := by
  induction rows generalizing bn with
  | nil => simp
  | cons r rest ih =>
    simp only [List.foldl_cons]
    rw [ih, mmGet_mmAppend]
    by_cases h : r.name = k
    · simp [List.filter, h]
    · simp [List.filter, h]

theorem head?_filter_map {α β : Type} (l : List α) (p : α → Bool) (f : α → β) :
    ((l.filter p).map f).head? = (l.find? p).map f := by
  induction l with
  | nil => rfl
  | cons a l ih => by_cases h : p a <;> simp [List.filter, List.find?, h, ih]

theorem find?_of_unique {α : Type} (l : List α) (p : α → Bool) (r : α)
    (hmem : r ∈ l) (hp : p r = true) (huniq : ∀ x ∈ l, p x = true → x = r) :
    l.find? p = some r := by
  induction l with
  | nil => cases hmem
  | cons a l ih =>
    by_cases h : p a
    · have ha : a = r := huniq a (List.mem_cons_self a l) h
      subst ha
      simp [List.find?, h]
    · rcases List.mem_cons.mp hmem with rfl | hmem2
      · exact absurd hp h
      · simp only [List.find?, h]
        exact ih hmem2 (fun x hx hpx => huniq x (List.mem_cons_of_mem a hx) hpx)

theorem dot_split_unique (a b x y : List Char)
    (ha : '.' ∉ a) (hb : '.' ∉ b)
    (h : a ++ '.' :: x = b ++ '.' :: y) : a = b ∧ x = y := by
  induction a generalizing b with
  | nil =>
    cases b with
    | nil => simpa using h
    | cons c bs =>
      simp only [List.nil_append, List.cons_append, List.cons.injEq] at h
      exact absurd (h.1 ▸ List.mem_cons_self c bs) hb
  | cons c as ih =>
    cases b with
    | nil =>
      simp only [List.cons_append, List.nil_append, List.cons.injEq] at h
      exact absurd (h.1 ▸ List.mem_cons_self c as) ha
    | cons d bs =>
      simp only [List.cons_append, List.cons.injEq] at h
      obtain ⟨rfl, h2⟩ := h
      have := ih bs (fun hm => ha (List.mem_cons_of_mem _ hm))
        (fun hm => hb (List.mem_cons_of_mem _ hm)) h2
      exact ⟨by rw [this.1], this.2⟩

theorem full_name_decompose (s1 n1 s2 n2 : String)
    (h1 : dotFree s1 = true) (h2 : dotFree s2 = true)
    (h : s1 ++ "." ++ n1 = s2 ++ "." ++ n2) : s1 = s2 ∧ n1 = n2 := by
  have hd : s1.data ++ '.' :: n1.data = s2.data ++ '.' :: n2.data := by
    have := congrArg String.data h
    simpa [String.data_append] using this
  have h1d : '.' ∉ s1.data := by simpa [dotFree] using h1
  have h2d : '.' ∉ s2.data := by simpa [dotFree] using h2
  obtain ⟨hs, hn⟩ := dot_split_unique _ _ _ _ h1d h2d hd
  constructor
  · cases s1; cases s2; cases hs; rfl
  · cases n1; cases n2; cases hn; rfl

/-- C8: with no schema given, `resolve_table` returns the table of the
default schema `Erp` when one of that name exists; otherwise it returns
the first match of the bare-name index in catalog (load) order; and `none`
when no table of that name exists (the `find?` below is then `none`).
Schema and table names are assumed dot-free so that full names decompose
uniquely, and catalog rows are assumed pairwise distinct in
(schema, name). -/
theorem resolveTable_default_schema_preference (rows : List TableRow)
    (fkRows : List FkRow) (name : String)
    (hd : ∀ r ∈ rows, dotFree r.schema = true ∧ dotFree r.name = true)
    (hu : rows.Pairwise (fun r1 r2 => r1.schema ≠ r2.schema ∨ r1.name ≠ r2.name)) :
    (∀ r ∈ rows, r.schema = "Erp" → r.name = name →
      resolveTable (loadCache rows fkRows) name none = some ⟨r.schema, r.name, r.ttype⟩) ∧
    ((∀ r ∈ rows, ¬(r.schema = "Erp" ∧ r.name = name)) →
      resolveTable (loadCache rows fkRows) name none =
        (rows.find? (fun r => r.name = name)).map
          (fun r => (⟨r.schema, r.name, r.ttype⟩ : TableInfo))) := by
  have htab : (loadCache rows fkRows).tables =
      rows.foldl
        (fun m r => dictPut m (r.schema ++ "." ++ r.name) ⟨r.schema, r.name, r.ttype⟩)
        [] := loadTables_fst rows ([], [], [])
  have hbn : (loadCache rows fkRows).tablesByName =
      rows.foldl
        (fun m r => mmAppend m r.name (⟨r.schema, r.name, r.ttype⟩ : TableInfo)) [] :=
    loadTables_byName rows ([], [], [])
  have hErpDot : ("Erp" ++ "." : String) = "Erp." := by decide
  have hErpKey : ∀ r : TableRow, (r.schema ++ "." ++ r.name = "Erp." ++ name) →
      r ∈ rows → r.schema = "Erp" ∧ r.name = name := by
    intro r hkey hr
    apply full_name_decompose _ _ _ _ (hd r hr).1 (by decide)
    rw [hkey, ← hErpDot]
  constructor
  · intro r hr hs hnm
    have hkey : (fun r2 : TableRow => decide (r2.schema ++ "." ++ r2.name = "Erp." ++ name)) r
        = true := by
      simp only [decide_eq_true_eq, hs, hnm]
      rw [← hErpDot]
    have hfind : rows.reverse.find?
        (fun r2 => r2.schema ++ "." ++ r2.name = "Erp." ++ name) = some r := by
      apply find?_of_unique _ _ r (List.mem_reverse.mpr hr) hkey
      intro x hx hpx
      have hx2 : x ∈ rows := List.mem_reverse.mp hx
      have hxe := hErpKey x (by simpa using hpx) hx2
      by_contra hne
      have hsymm : Symmetric (fun r1 r2 : TableRow =>
          r1.schema ≠ r2.schema ∨ r1.name ≠ r2.name) := by
        intro a b hab
        rcases hab with h1 | h1
        · exact Or.inl (fun hh => h1 hh.symm)
        · exact Or.inr (fun hh => h1 hh.symm)
      have := List.Pairwise.forall hsymm hu hx2 hr hne
      rcases this with hne2 | hne2
      · exact hne2 (hxe.1.trans hs.symm)
      · exact hne2 (hxe.2.trans hnm.symm)
    show resolveTable _ name none = _
    unfold resolveTable
    rw [htab, dictGet_foldl_put, hfind]
  · intro hno
    have hfind : rows.reverse.find?
        (fun r2 => r2.schema ++ "." ++ r2.name = "Erp." ++ name) = none := by
      rw [List.find?_eq_none]
      intro x hx hpx
      have hxe := hErpKey x (by simpa using hpx) (List.mem_reverse.mp hx)
      exact hno x (List.mem_reverse.mp hx) hxe
    show resolveTable _ name none = _
    unfold resolveTable
    rw [htab, dictGet_foldl_put, hfind]
    show (mmGet (loadCache rows fkRows).tablesByName name).head? = _
    rw [hbn, mmGet_foldl_append]
    simp only [mmGet, dictGet, List.find?, Option.getD_none, List.nil_append]
    rw [head?_filter_map]

/-- Witness for C8 at the instance named by the claim: with both `Erp.Foo`
and `Other.Foo` present, `resolve("Foo")` returns `Erp.Foo`. -/
theorem resolveTable_default_schema_preference_witness :
    (∀ r ∈ [(⟨"Other", "Foo", "BASE TABLE"⟩ : TableRow), ⟨"Erp", "Foo", "VIEW"⟩],
        dotFree r.schema = true ∧ dotFree r.name = true) ∧
      resolveTable (loadCache [⟨"Other", "Foo", "BASE TABLE"⟩, ⟨"Erp", "Foo", "VIEW"⟩] [])
        "Foo" none = some ⟨"Erp", "Foo", "VIEW"⟩ := by
  refine ⟨by decide, ?_⟩
  exact (resolveTable_default_schema_preference
      [⟨"Other", "Foo", "BASE TABLE"⟩, ⟨"Erp", "Foo", "VIEW"⟩] [] "Foo"
      (by decide) (by decide)).1
    ⟨"Erp", "Foo", "VIEW"⟩ (by decide) rfl rfl

/-! ### C5: idempotence of `_inject_top` -/

theorem lastOr_cons (prev : Option Char) (a : Char) (u : List Char) :
    lastOr prev (a :: u) = lastOr (some a) u := by
  cases u with
  | nil => simp [lastOr]
  | cons b v =>
    simp only [lastOr, List.getLast?_cons_cons]
    rcases h : (b :: v).getLast? with _ | x
    · simp at h
    · rfl

theorem isDigit_not_space (c : Char) (h : isDigitChar c = true) :
    isSpaceChar c = false := by
  simp only [isDigitChar, Bool.and_eq_true, decide_eq_true_eq] at h
  simp only [isSpaceChar, Bool.or_eq_false_iff, decide_eq_false_iff_not]
  omega

theorem natStrGo_props (fuel : Nat) : ∀ n, n < fuel →
    natStrGo fuel n ≠ [] ∧ ∀ c ∈ natStrGo fuel n, isDigitChar c = true := by
  induction fuel with
  | zero => intro n h; omega
  | succ fuel ih =>
    intro n h
    by_cases h10 : n < 10
    · refine ⟨by simp [natStrGo, h10], ?_⟩
      intro c hc
      simp only [natStrGo, if_pos h10, List.mem_singleton] at hc
      subst hc
      interval_cases n <;> decide
    · have hdiv : n / 10 < fuel := by
        have := Nat.div_lt_self (show 0 < n by omega) (show 1 < 10 by omega)
        omega
      obtain ⟨hne, hdig⟩ := ih (n / 10) hdiv
      refine ⟨by simp [natStrGo, h10], ?_⟩
      intro c hc
      simp only [natStrGo, if_neg h10, List.mem_append, List.mem_singleton] at hc
      rcases hc with hc | hc
      · exact hdig c hc
      · subst hc
        have hm : n % 10 < 10 := Nat.mod_lt _ (by omega)
        set m := n % 10 with hm2
        interval_cases m <;> decide

theorem natStr_props (n : Nat) :
    natStr n ≠ [] ∧ ∀ c ∈ natStr n, isDigitChar c = true :=
  natStrGo_props (n + 1) n (Nat.lt_succ_self n)

theorem scanTop_append (u v : List Char) (prev : Option Char)
    (h : matchTopAt (lastOr prev u) v = true) : scanTop prev (u ++ v) = true := by
  induction u generalizing prev with
  | nil =>
    have hp : lastOr prev [] = prev := rfl
    rw [hp] at h
    cases v with
    | nil => simp [matchTopAt] at h
    | cons c rest => simp [scanTop, h]
  | cons a u ih =>
    rw [lastOr_cons] at h
    have := ih (some a) h
    simp [scanTop, this]

theorem hasTopNum_insert (u w : List Char) (n : Nat) :
    hasTopNum (u ++ (topIns n ++ w)) = true := by
  have hassoc : u ++ (topIns n ++ w) =
      (u ++ [' ']) ++ ('T' :: 'O' :: 'P' :: ' ' :: (natStr n ++ w)) := by
    simp [topIns]
  rw [hasTopNum, hassoc]
  apply scanTop_append
  have hlast : lastOr none (u ++ [' ']) = some ' ' := by
    have : (u ++ [' ']).getLast? = some ' ' :=
      List.getLast?_append_of_ne_nil u (by simp)
    simp [lastOr, this]
  rw [hlast]
  obtain ⟨hne, hdig⟩ := natStr_props n
  rcases hcons : natStr n with _ | ⟨d, ds⟩
  · exact absurd hcons hne
  · have hd : isDigitChar d = true := hdig d (by rw [hcons]; exact List.mem_cons_self d ds)
    have h1 : afterSpacesDigit (d :: (ds ++ w)) = true := by
      simp [afterSpacesDigit, isDigit_not_space d hd, hd]
    simp only [List.cons_append, matchTopAt]
    rw [h1]
    decide

theorem injectTop_of_top (s : List Char) (n : Nat)
    (h : hasTopNum (pyStrip s) = true) : injectTop s n = s := by
  simp [injectTop, h]

theorem head_dropWhile_not (p : Char → Bool) (l : List Char) (c : Char)
    (h : (l.dropWhile p).head? = some c) : p c = false := by
  induction l with
  | nil => simp [List.dropWhile] at h
  | cons a l ih =>
    by_cases ha : p a
    · rw [List.dropWhile_cons_of_pos ha] at h
      exact ih h
    · rw [List.dropWhile_cons_of_neg ha] at h
      simp only [List.head?_cons, Option.some_inj] at h
      rw [← h]
      simpa using ha

theorem pyStrip_head_not_space (s : List Char) (c : Char)
    (h : (pyStrip s).head? = some c) : isSpaceChar c = false := by
  unfold pyStrip at h
  obtain ⟨t, ht⟩ := List.rdropWhile_prefix isSpaceChar (s.dropWhile isSpaceChar)
  have hh : (s.dropWhile isSpaceChar).head? = some c := by
    rw [← ht]
    cases hrw : List.rdropWhile isSpaceChar (s.dropWhile isSpaceChar) with
    | nil => rw [hrw] at h; simp at h
    | cons x xs =>
      rw [hrw] at h
      simp only [List.head?_cons, Option.some_inj] at h
      simp [h]
  exact head_dropWhile_not _ _ _ hh

theorem pyStrip_getLast_not_space (s : List Char) (c : Char)
    (h : (pyStrip s).getLast? = some c) : isSpaceChar c = false := by
  unfold pyStrip at h
  have hne : List.rdropWhile isSpaceChar (s.dropWhile isSpaceChar) ≠ [] := by
    intro hnil
    rw [hnil] at h
    simp at h
  have hlast := List.rdropWhile_last_not isSpaceChar (s.dropWhile isSpaceChar) hne
  have hg : (List.rdropWhile isSpaceChar (s.dropWhile isSpaceChar)).getLast hne = c := by
    rwa [List.getLast?_eq_getLast _ hne, Option.some_inj] at h
  rw [hg] at hlast
  simpa using hlast

theorem pyStrip_eq_self (s : List Char)
    (hh : ∀ c, s.head? = some c → isSpaceChar c = false)
    (hl : ∀ c, s.getLast? = some c → isSpaceChar c = false) :
    pyStrip s = s := by
  unfold pyStrip
  have h1 : s.dropWhile isSpaceChar = s := by
    cases s with
    | nil => rfl
    | cons a l =>
      have := hh a rfl
      simp [List.dropWhile, this]
  rw [h1, List.rdropWhile_eq_self_iff.mpr]
  intro hne
  have := hl (s.getLast hne) (List.getLast?_eq_getLast s hne)
  simp [this]

theorem selectEndsGo_ge (s : List Char) : ∀ (prev : Option Char) (i : Nat),
    ∀ q ∈ selectEndsGo prev i s, i + 6 ≤ q := by
  induction s with
  | nil => intro prev i q hq; simp [selectEndsGo] at hq
  | cons c rest ih =>
    intro prev i q hq
    simp only [selectEndsGo, List.mem_append] at hq
    rcases hq with hq | hq
    · by_cases hm : matchSelectAt prev (c :: rest) = true
      · rw [if_pos hm] at hq
        simp only [List.mem_singleton] at hq
        omega
      · rw [if_neg hm] at hq
        simp at hq
    · have := ih (some c) (i + 1) q hq
      omega

theorem injectTop_insert_fixed (st : List Char) (pos n : Nat)
    (hpos : 1 ≤ pos) (hne : st ≠ [])
    (hh : ∀ c, st.head? = some c → isSpaceChar c = false)
    (hl : ∀ c, st.getLast? = some c → isSpaceChar c = false) :
    injectTop (st.take pos ++ (topIns n ++ st.drop pos)) n =
      st.take pos ++ (topIns n ++ st.drop pos) := by
  have hstrip : pyStrip (st.take pos ++ (topIns n ++ st.drop pos)) =
      st.take pos ++ (topIns n ++ st.drop pos) := by
    apply pyStrip_eq_self
    · intro c hc
      obtain ⟨a, t, hst⟩ : ∃ a t, st = a :: t := by
        cases st with
        | nil => exact absurd rfl hne
        | cons a t => exact ⟨a, t, rfl⟩
      obtain ⟨pos2, rfl⟩ : ∃ pos2, pos = pos2 + 1 := ⟨pos - 1, by omega⟩
      rw [hst] at hc
      simp only [List.take, List.cons_append, List.head?_cons, Option.some_inj] at hc
      exact hh c (by rw [hst, ← hc]; rfl)
    · intro c hc
      by_cases hd : st.drop pos = []
      · rw [hd] at hc
        have hg : (st.take pos ++ (topIns n ++ ([] : List Char))).getLast? =
            (natStr n).getLast? := by
          rw [List.getLast?_append_of_ne_nil]
          · show (topIns n ++ ([] : List Char)).getLast? = _
            rw [List.append_nil]
            show (' ' :: 'T' :: 'O' :: 'P' :: ' ' :: natStr n).getLast? = _
            rcases hcons : natStr n with _ | ⟨d, ds⟩
            · exact absurd hcons (natStr_props n).1
            · simp [List.getLast?_cons_cons]
          · simp [topIns]
        rw [hg] at hc
        exact isDigit_not_space c
          ((natStr_props n).2 c (List.mem_of_getLast?_eq_some hc))
      · rw [List.getLast?_append_of_ne_nil, List.getLast?_append_of_ne_nil _ hd] at hc
        · apply hl c
          rw [← List.take_append_drop pos st] at hne ⊢
          rwa [List.getLast?_append_of_ne_nil _ hd]
        · simp [hd]
  rw [injectTop_of_top _ n (by rw [hstrip]; exact hasTopNum_insert _ _ n)]

/-- C5: row-cap injection is idempotent: applying `_inject_top` twice
yields the same statement as applying it once, for every SQL statement and
every cap; in particular injecting into a statement already carrying a
`TOP` clause is a no-op. -/
theorem injectTop_idempotent (sql : List Char) (n : Nat) :
    injectTop (injectTop sql n) n = injectTop sql n := by
  by_cases h1 : hasTopNum (pyStrip sql) = true
  · rw [injectTop_of_top sql n h1]
    exact injectTop_of_top sql n h1
  · have h1f : hasTopNum (pyStrip sql) = false := by simpa using h1
    by_cases h2 : startsWithWITH (pyStrip sql) = true
    · cases hsel : (selectEnds (pyStrip sql)).getLast? with
      | none =>
        have e : injectTop sql n = sql := by
          simp [injectTop, h1f, h2, hsel]
        rw [e]
        exact e
      | some pos =>
        have hW : pyStrip sql ≠ [] := by
          intro hnil
          rw [hnil] at h2
          simp [startsWithWITH] at h2
        have hpos : 1 ≤ pos := by
          have hmem : pos ∈ selectEnds (pyStrip sql) :=
            List.mem_of_getLast?_eq_some hsel
          have := selectEndsGo_ge (pyStrip sql) none 0 pos hmem
          omega
        have e : injectTop sql n =
            (pyStrip sql).take pos ++ (topIns n ++ (pyStrip sql).drop pos) := by
          simp [injectTop, h1f, h2, hsel]
        rw [e]
        exact injectTop_insert_fixed (pyStrip sql) pos n hpos hW
          (pyStrip_head_not_space sql) (pyStrip_getLast_not_space sql)
    · by_cases h3 : matchSelectAt none (pyStrip sql) = true
      · have hW : pyStrip sql ≠ [] := by
          intro hnil
          rw [hnil] at h3
          simp [matchSelectAt, selKw, ciMatchKw] at h3
        have e : injectTop sql n =
            (pyStrip sql).take 6 ++ (topIns n ++ (pyStrip sql).drop 6) := by
          simp [injectTop, h1f, h2, h3]
        rw [e]
        exact injectTop_insert_fixed (pyStrip sql) 6 n (by omega) hW
          (pyStrip_head_not_space sql) (pyStrip_getLast_not_space sql)
      · have e : injectTop sql n = sql := by
          simp [injectTop, h1f, h2, h3]
        rw [e]
        exact e

/-! ### C4: `WITH` statements are capped at the last `SELECT` -/

theorem mem_selectEndsGo (s : List Char) : ∀ (prev : Option Char) (i q : Nat),
    q ∈ selectEndsGo prev i s ↔
      ∃ j, q = i + j + 6 ∧ matchSelectAt (lastOr prev (s.take j)) (s.drop j) = true := by
  induction s with
  | nil =>
    intro prev i q
    simp only [selectEndsGo, List.not_mem_nil, false_iff, not_exists, not_and]
    intro j hq
    have hci : ciMatchKw selKw ([] : List Char) = false := by rfl
    simp [matchSelectAt, List.drop_nil, hci]
  | cons c rest ih =>
    intro prev i q
    constructor
    · intro hq
      simp only [selectEndsGo, List.mem_append] at hq
      rcases hq with hq | hq
      · by_cases hm : matchSelectAt prev (c :: rest) = true
        · rw [if_pos hm] at hq
          simp only [List.mem_singleton] at hq
          exact ⟨0, by omega, hm⟩
        · rw [if_neg hm] at hq
          simp at hq
      · obtain ⟨j, hqe, hj⟩ := (ih (some c) (i + 1) q).mp hq
        refine ⟨j + 1, by omega, ?_⟩
        rw [show (c :: rest).take (j + 1) = c :: rest.take j from rfl,
          show (c :: rest).drop (j + 1) = rest.drop j from rfl, lastOr_cons]
        exact hj
    · rintro ⟨j, rfl, hj⟩
      simp only [selectEndsGo, List.mem_append]
      cases j with
      | zero =>
        left
        have hj2 : matchSelectAt prev (c :: rest) = true := hj
        rw [if_pos hj2]
        simp
      | succ j =>
        right
        apply (ih (some c) (i + 1) (i + (j + 1) + 6)).mpr
        refine ⟨j, by omega, ?_⟩
        rw [show (c :: rest).take (j + 1) = c :: rest.take j from rfl,
          show (c :: rest).drop (j + 1) = rest.drop j from rfl, lastOr_cons] at hj
        exact hj

theorem mem_selectEnds_iff_isSelectEnd (s : List Char) (q : Nat) :
    q ∈ selectEnds s ↔ isSelectEnd s q = true := by
  rw [selectEnds, mem_selectEndsGo]
  constructor
  · rintro ⟨j, rfl, hj⟩
    simp only [isSelectEnd, Bool.and_eq_true, decide_eq_true_eq]
    constructor
    · omega
    · simpa [show 0 + j + 6 - 6 = j from by omega] using hj
  · intro h
    simp only [isSelectEnd, Bool.and_eq_true, decide_eq_true_eq] at h
    exact ⟨q - 6, by omega, h.2⟩

theorem selectEndsGo_le_getLast (s : List Char) : ∀ (prev : Option Char) (i q p : Nat),
    q ∈ selectEndsGo prev i s →
    (selectEndsGo prev i s).getLast? = some p → q ≤ p := by
  induction s with
  | nil => intro prev i q p hq _; simp [selectEndsGo] at hq
  | cons c rest ih =>
    intro prev i q p hq hp
    simp only [selectEndsGo] at hq hp
    cases htail : selectEndsGo (some c) (i + 1) rest with
    | nil =>
      rw [htail, List.append_nil] at hq hp
      by_cases hm : matchSelectAt prev (c :: rest) = true
      · rw [if_pos hm] at hq hp
        simp only [List.mem_singleton] at hq
        simp only [List.getLast?_singleton, Option.some_inj] at hp
        omega
      · rw [if_neg hm] at hq
        simp at hq
    | cons x xs =>
      rw [htail] at hq hp
      rw [List.getLast?_append_of_ne_nil _ (by simp)] at hp
      rcases List.mem_append.mp hq with hq | hq
      · have hpmem : p ∈ selectEndsGo (some c) (i + 1) rest := by
          rw [htail]
          exact List.mem_of_getLast?_eq_some hp
        have hge := selectEndsGo_ge rest (some c) (i + 1) p hpmem
        by_cases hm : matchSelectAt prev (c :: rest) = true
        · rw [if_pos hm] at hq
          simp only [List.mem_singleton] at hq
          omega
        · rw [if_neg hm] at hq
          simp at hq
      · refine ih (some c) (i + 1) q p ?_ ?_ <;> rw [htail]
        · exact hq
        · exact hp

/-- C4: for a statement beginning with `WITH`, carrying no `TOP` clause
and containing at least one `SELECT`, `_inject_top` inserts the cap
immediately after the last `SELECT` keyword of the text: the insertion
point `p` is a `SELECT` end position, no `SELECT` match ends later, and
the result is the statement split at `p` with `" TOP n"` inserted. -/
theorem injectTop_targets_last_select (sql : List Char) (n : Nat)
    (hW : startsWithWITH (pyStrip sql) = true)
    (hT : hasTopNum (pyStrip sql) = false)
    (hS : selectEnds (pyStrip sql) ≠ []) :
    ∃ p, isSelectEnd (pyStrip sql) p = true ∧
      (∀ q, isSelectEnd (pyStrip sql) q = true → q ≤ p) ∧
      injectTop sql n =
        (pyStrip sql).take p ++ (topIns n ++ (pyStrip sql).drop p) := by
  obtain ⟨p, hp⟩ : ∃ p, (selectEnds (pyStrip sql)).getLast? = some p := by
    cases h : (selectEnds (pyStrip sql)).getLast? with
    | none => exact absurd (List.getLast?_eq_none_iff.mp h) hS
    | some p => exact ⟨p, rfl⟩
  refine ⟨p, ?_, ?_, ?_⟩
  · exact (mem_selectEnds_iff_isSelectEnd _ _).mp (List.mem_of_getLast?_eq_some hp)
  · intro q hq
    exact selectEndsGo_le_getLast (pyStrip sql) none 0 q p
      ((mem_selectEnds_iff_isSelectEnd _ _).mpr hq) hp
  · simp [injectTop, hT, hW, hp]

/-- Witness for C4: `WITH c AS (SELECT a FROM t) SELECT b FROM c` with cap
3 is capped at the outer (last) `SELECT`. -/
theorem injectTop_targets_last_select_witness :
    startsWithWITH (pyStrip "WITH c AS (SELECT a FROM t) SELECT b FROM c".toList) = true ∧
      hasTopNum (pyStrip "WITH c AS (SELECT a FROM t) SELECT b FROM c".toList) = false ∧
      (∃ p, isSelectEnd (pyStrip "WITH c AS (SELECT a FROM t) SELECT b FROM c".toList) p
          = true ∧
        (∀ q, isSelectEnd (pyStrip "WITH c AS (SELECT a FROM t) SELECT b FROM c".toList) q
            = true → q ≤ p) ∧
        injectTop "WITH c AS (SELECT a FROM t) SELECT b FROM c".toList 3 =
          (pyStrip "WITH c AS (SELECT a FROM t) SELECT b FROM c".toList).take p ++
            (topIns 3 ++
              (pyStrip "WITH c AS (SELECT a FROM t) SELECT b FROM c".toList).drop p)) :=
  ⟨by decide, by decide,
    injectTop_targets_last_select "WITH c AS (SELECT a FROM t) SELECT b FROM c".toList 3
      (by decide) (by decide) (by decide)⟩

/-! ### C1: keyword detection versus comments -/

/-- C1 counterexample.  Because `_strip_comments` removes `--` line
comments before `/* */` block comments, and deletes comments instead of
replacing them with whitespace, the claim fails in both directions at
concrete inputs: in `/* -- */ DELETE FROM t` and in `x/*y*/DELETE FROM t`
the keyword `DELETE` occurs as a whole word outside every comment, yet
validation passes; in `/* DELETE\n-- */ SELECT 1` the only denylisted
keyword lies entirely inside a terminated block comment, yet validation
raises. -/
theorem validateReadonly_comment_claim_false :
    (specKwOutsideComments "/* -- */ DELETE FROM t".toList = true ∧
      validateReadonly "/* -- */ DELETE FROM t".toList = none) ∧
    (specKwOnlyInComments "/* DELETE\n-- */ SELECT 1".toList = true ∧
      (validateReadonly "/* DELETE\n-- */ SELECT 1".toList).isSome = true) ∧
    (specKwOutsideComments "x/*y*/DELETE FROM t".toList = true ∧
      validateReadonly "x/*y*/DELETE FROM t".toList = none) := by
  refine ⟨⟨by decide, by decide⟩, ⟨by decide, by decide⟩, by decide, by decide⟩

theorem hasPair_cons (a b c : Char) (rest : List Char) :
    hasPair a b (c :: rest) = ((c = a && rest.head? = some b) || hasPair a b rest) := rfl

theorem hasPair_append_false (a b : Char) (x y : List Char)
    (hx : hasPair a b x = false) (hy : hasPair a b y = false)
    (hspan : ¬(x.getLast? = some a ∧ y.head? = some b)) :
    hasPair a b (x ++ y) = false := by
  induction x with
  | nil => simpa using hy
  | cons c x ih =>
    rw [List.cons_append, hasPair_cons]
    rw [hasPair_cons] at hx
    simp only [Bool.or_eq_false_iff] at hx ⊢
    obtain ⟨hx1, hx2⟩ := hx
    constructor
    · cases x with
      | nil =>
        simp only [List.nil_append]
        by_cases hca : c = a
        · subst hca
          by_cases hyb : y.head? = some b
          · exact absurd ⟨rfl, hyb⟩ hspan
          · simp [hyb]
        · simp [hca]
      | cons d x2 => simpa using hx1
    · apply ih hx2
      rintro ⟨hl, hh⟩
      apply hspan
      refine ⟨?_, hh⟩
      cases x with
      | nil => simp at hl
      | cons d x2 => rw [← hl]; simp [List.getLast?_cons_cons]

theorem slGo_norm_append (r : List Char) : ∀ (c : List Char),
    hasPair '-' '-' c = false →
    ¬(c.getLast? = some '-' ∧ r.head? = some '-') →
    slGo .norm (c ++ r) = c ++ slGo .norm r := by
  intro c
  induction c with
  | nil => intro _ _; simp
  | cons x c ih =>
    intro hdd hspan
    rw [hasPair_cons] at hdd
    simp only [Bool.or_eq_false_iff] at hdd
    obtain ⟨hdd1, hdd2⟩ := hdd
    have hspan2 : ¬(c.getLast? = some '-' ∧ r.head? = some '-') := by
      rintro ⟨hl, hh⟩
      apply hspan
      refine ⟨?_, hh⟩
      cases c with
      | nil => simp at hl
      | cons d c2 => rw [← hl]; simp [List.getLast?_cons_cons]
    by_cases hx : x = '-'
    · subst hx
      rw [List.cons_append]
      show slGo .dash (c ++ r) = '-' :: (c ++ slGo .norm r)
      cases c with
      | nil =>
        cases r with
        | nil => rfl
        | cons y r2 =>
          have hy : ¬(y = '-') := by
            intro h
            exact hspan ⟨rfl, by rw [h]; rfl⟩
          show slGo .dash (y :: r2) = '-' :: slGo .norm (y :: r2)
          simp [slGo, hy]
      | cons y c2 =>
        have hy : ¬(y = '-') := by
          intro h
          subst h
          simp at hdd1
        have hihc : slGo .norm ((y :: c2) ++ r) = (y :: c2) ++ slGo .norm r :=
          ih hdd2 hspan2
        rw [List.cons_append] at hihc
        have hy2 : slGo .norm (y :: (c2 ++ r)) = y :: slGo .norm (c2 ++ r) := by
          simp [slGo, hy]
        rw [hy2] at hihc
        simp only [List.cons_append, List.cons.injEq, true_and] at hihc
        show slGo .dash (y :: (c2 ++ r)) = '-' :: y :: c2 ++ slGo .norm r
        have : slGo .dash (y :: (c2 ++ r)) = '-' :: y :: slGo .norm (c2 ++ r) := by
          simp [slGo, hy]
        rw [this, hihc]
        simp
    · rw [List.cons_append]
      have hstep : slGo .norm (x :: (c ++ r)) = x :: slGo .norm (c ++ r) := by
        simp [slGo, hx]
      rw [hstep, ih hdd2 hspan2]
      simp

theorem slGo_comm_skip (r : List Char) : ∀ (t : List Char), '\n' ∉ t →
    slGo .comm (t ++ r) = slGo .comm r := by
  intro t
  induction t with
  | nil => intro _; rfl
  | cons x t ih =>
    intro ht
    have hx : ¬(x = '\n') := fun h => ht (h ▸ List.mem_cons_self x t)
    rw [List.cons_append]
    show slGo .comm (x :: (t ++ r)) = _
    have : slGo .comm (x :: (t ++ r)) = slGo .comm (t ++ r) := by simp [slGo, hx]
    rw [this]
    exact ih (fun h => ht (List.mem_cons_of_mem _ h))

theorem slGo_line_piece (t r : List Char) (ht : '\n' ∉ t) :
    slGo .norm (('-' :: '-' :: (t ++ ['\n'])) ++ r) = '\n' :: slGo .norm r := by
  have h1 : slGo .norm (('-' :: '-' :: (t ++ ['\n'])) ++ r) =
      slGo .comm ((t ++ ['\n']) ++ r) := by
    simp [slGo]
  rw [h1, List.append_assoc, List.singleton_append, slGo_comm_skip _ t ht]
  simp [slGo]

theorem sbGo_slash_step (acc : List Char) (s : List Char) (hs : s.head? ≠ some '*') :
    sbGo .slash acc s = '/' :: sbGo .norm acc s := by
  cases s with
  | nil => rfl
  | cons y t =>
    have hy : ¬(y = '*') := by
      intro h
      exact hs (by rw [h]; rfl)
    by_cases hy2 : y = '/'
    · subst hy2
      simp [sbGo]
    · simp [sbGo, hy, hy2]

theorem sbGo_norm_append (r : List Char) : ∀ (c : List Char) (acc : List Char),
    hasPair '/' '*' c = false →
    ¬(c.getLast? = some '/' ∧ r.head? = some '*') →
    sbGo .norm acc (c ++ r) = c ++ sbGo .norm acc r := by
  intro c
  induction c with
  | nil => intro acc _ _; simp
  | cons x c ih =>
    intro acc hps hspan
    rw [hasPair_cons] at hps
    simp only [Bool.or_eq_false_iff] at hps
    obtain ⟨hps1, hps2⟩ := hps
    have hspan2 : ¬(c.getLast? = some '/' ∧ r.head? = some '*') := by
      rintro ⟨hl, hh⟩
      apply hspan
      refine ⟨?_, hh⟩
      cases c with
      | nil => simp at hl
      | cons d c2 => rw [← hl]; simp [List.getLast?_cons_cons]
    by_cases hx : x = '/'
    · subst hx
      rw [List.cons_append]
      have hhead : (c ++ r).head? ≠ some '*' := by
        cases c with
        | nil =>
          simp only [List.nil_append]
          intro hh
          exact hspan ⟨rfl, hh⟩
        | cons d c2 =>
          intro hh
          simp only [List.cons_append, List.head?_cons, Option.some_inj] at hh
          subst hh
          simp at hps1
      have hstep : sbGo .norm acc ('/' :: (c ++ r)) = sbGo .slash acc (c ++ r) := by
        simp [sbGo]
      rw [hstep, sbGo_slash_step acc _ hhead, ih acc hps2 hspan2]
      simp
    · rw [List.cons_append]
      have hstep : sbGo .norm acc (x :: (c ++ r)) = x :: sbGo .norm acc (c ++ r) := by
        simp [sbGo, hx]
      rw [hstep, ih acc hps2 hspan2]
      simp

theorem sbGo_block_skip (r : List Char) : ∀ (b : List Char) (acc : List Char),
    hasPair '*' '/' b = false →
    (sbGo .inC acc (b ++ '*' :: '/' :: r) = sbGo .norm [] r ∧
      (b.head? ≠ some '/' → sbGo .inCStar acc (b ++ '*' :: '/' :: r) = sbGo .norm [] r)) := by
  intro b
  induction b with
  | nil =>
    intro acc _
    constructor
    · simp [sbGo]
    · intro _
      simp [sbGo]
  | cons x b ih =>
    intro acc hsl
    rw [hasPair_cons] at hsl
    simp only [Bool.or_eq_false_iff] at hsl
    obtain ⟨hsl1, hsl2⟩ := hsl
    have hbh : x = '*' → b.head? ≠ some '/' := by
      intro hx hh
      subst hx
      cases b with
      | nil => simp at hh
      | cons d b2 =>
        simp only [List.head?_cons, Option.some_inj] at hh
        subst hh
        simp at hsl1
    constructor
    · rw [List.cons_append]
      by_cases hx : x = '*'
      · subst hx
        have hstep : sbGo .inC acc ('*' :: (b ++ '*' :: '/' :: r)) =
            sbGo .inCStar ('*' :: acc) (b ++ '*' :: '/' :: r) := by simp [sbGo]
        rw [hstep]
        exact (ih _ hsl2).2 (hbh rfl)
      · have hstep : sbGo .inC acc (x :: (b ++ '*' :: '/' :: r)) =
            sbGo .inC (x :: acc) (b ++ '*' :: '/' :: r) := by simp [sbGo, hx]
        rw [hstep]
        exact (ih _ hsl2).1
    · intro hxh
      have hx7 : ¬(x = '/') := by
        intro h
        exact hxh (by rw [h]; rfl)
      rw [List.cons_append]
      by_cases hx : x = '*'
      · subst hx
        have hstep : sbGo .inCStar acc ('*' :: (b ++ '*' :: '/' :: r)) =
            sbGo .inCStar ('*' :: acc) (b ++ '*' :: '/' :: r) := by simp [sbGo]
        rw [hstep]
        exact (ih _ hsl2).2 (hbh rfl)
      · have hstep : sbGo .inCStar acc (x :: (b ++ '*' :: '/' :: r)) =
            sbGo .inC (x :: acc) (b ++ '*' :: '/' :: r) := by simp [sbGo, hx7, hx]
        rw [hstep]
        exact (ih _ hsl2).1

theorem sbGo_block_piece (b r : List Char) (acc : List Char)
    (hsl : hasPair '*' '/' b = false) :
    sbGo .norm acc (('/' :: '*' :: (b ++ ['*', '/'])) ++ r) = sbGo .norm [] r := by
  have h1 : ('/' :: '*' :: (b ++ ['*', '/'])) ++ r =
      '/' :: '*' :: (b ++ '*' :: '/' :: r) := by simp
  rw [h1]
  have h2 : sbGo .norm acc ('/' :: '*' :: (b ++ '*' :: '/' :: r)) =
      sbGo .inC ['*', '/'] (b ++ '*' :: '/' :: r) := by simp [sbGo]
  rw [h2]
  exact (sbGo_block_skip r b _ hsl).1

theorem ciMatchKw_length_le (k : List Char) : ∀ (s : List Char),
    ciMatchKw k s = true → k.length ≤ s.length := by
  induction k with
  | nil => intro s _; simp
  | cons a k ih =>
    intro s h
    cases s with
    | nil => simp [ciMatchKw] at h
    | cons c s =>
      simp only [ciMatchKw, Bool.and_eq_true] at h
      have := ih s h.2
      simp only [List.length_cons]
      omega

theorem ciMatchKw_append_of_le (k : List Char) : ∀ (w v : List Char),
    k.length ≤ w.length → ciMatchKw k (w ++ v) = ciMatchKw k w := by
  induction k with
  | nil => intro w v _; simp [ciMatchKw]
  | cons a k ih =>
    intro w v h
    cases w with
    | nil => simp at h
    | cons c w =>
      simp only [List.cons_append, ciMatchKw, List.append_eq]
      rw [ih w v (by simpa using h)]

theorem ciMatchKw_take_map (k : List Char) : ∀ (s : List Char),
    ciMatchKw k s = true → (s.take k.length).map upChar = k := by
  induction k with
  | nil => intro s _; simp
  | cons a k ih =>
    intro s h
    cases s with
    | nil => simp [ciMatchKw] at h
    | cons c s =>
      simp only [ciMatchKw, Bool.and_eq_true, decide_eq_true_eq] at h
      simp only [List.length_cons, List.take_succ_cons, List.map_cons]
      rw [h.1, ih s h.2]

theorem blockedKeywords_upper : ∀ k ∈ blockedKeywords, ∀ ch ∈ k,
    65 ≤ ch.toNat ∧ ch.toNat ≤ 90 := by decide

theorem blockedKeywords_ne_nil : ∀ k ∈ blockedKeywords, k ≠ [] := by decide

theorem isWordChar_of_upChar (c ch : Char) (h : upChar c = ch)
    (hch : 65 ≤ ch.toNat ∧ ch.toNat ≤ 90) : isWordChar c = true := by
  unfold upChar at h
  by_cases hl : (97 ≤ c.toNat && c.toNat ≤ 122) = true
  · simp only [Bool.and_eq_true, decide_eq_true_eq] at hl
    simp only [isWordChar, Bool.or_eq_true, Bool.and_eq_true, decide_eq_true_eq]
    omega
  · rw [if_neg hl] at h
    subst h
    simp only [isWordChar, Bool.or_eq_true, Bool.and_eq_true, decide_eq_true_eq]
    omega

theorem mem_word_of_ciMatch (k : List Char) (hk : k ∈ blockedKeywords)
    (s : List Char) (hm : ciMatchKw k s = true) :
    ∀ c ∈ s.take k.length, isWordChar c = true := by
  intro c hc
  have hmap := ciMatchKw_take_map k s hm
  have : upChar c ∈ k := by
    rw [← hmap]
    exact List.mem_map_of_mem upChar hc
  exact isWordChar_of_upChar c (upChar c) rfl (blockedKeywords_upper k hk (upChar c) this)

theorem straddle_words (k w v : List Char) (hk : k ∈ blockedKeywords)
    (hm : ciMatchKw k (w ++ v) = true) (hlt : w.length < k.length) :
    (∀ c ∈ w, isWordChar c = true) ∧
      ∃ c v2, v = c :: v2 ∧ isWordChar c = true := by
  have hlen := ciMatchKw_length_le k (w ++ v) hm
  rw [List.length_append] at hlen
  have hword := mem_word_of_ciMatch k hk (w ++ v) hm
  have htake : (w ++ v).take k.length = w ++ v.take (k.length - w.length) := by
    rw [List.take_append_eq_append_take, List.take_of_length_le (by omega)]
  constructor
  · intro c hc
    exact hword c (by rw [htake]; exact List.mem_append_left _ hc)
  · cases hv : v with
    | nil =>
      rw [hv] at hlen
      simp at hlen
      omega
    | cons c v2 =>
      refine ⟨c, v2, rfl, ?_⟩
      apply hword c
      rw [htake, hv]
      apply List.mem_append_right
      have : k.length - w.length = (k.length - w.length - 1) + 1 := by omega
      rw [this, List.take_succ_cons]
      exact List.mem_cons_self c _

theorem tryKwAt_some (prev : Option Char) (s k m : List Char)
    (h : tryKwAt prev s k = some m) :
    m = s.take k.length ∧ ciMatchKw k s = true := by
  unfold tryKwAt at h
  by_cases hc : (boundaryB prev && ciMatchKw k s && boundaryB (s.drop k.length).head?) = true
  · rw [if_pos hc] at h
    simp only [Bool.and_eq_true] at hc
    exact ⟨(Option.some_inj.mp h).symm, hc.1.2⟩
  · rw [if_neg hc] at h
    cases h

theorem firstKwAt_some (prev : Option Char) (s m : List Char) :
    ∀ (ks : List (List Char)), firstKwAt prev s ks = some m →
      ∃ k ∈ ks, tryKwAt prev s k = some m := by
  intro ks
  induction ks with
  | nil => intro h; cases h
  | cons k ks ih =>
    intro h
    simp only [firstKwAt] at h
    cases hk : tryKwAt prev s k with
    | some m2 =>
      rw [hk] at h
      have h2 : some m2 = some m := h
      exact ⟨k, List.mem_cons_self k ks, by rw [hk, h2]⟩
    | none =>
      rw [hk] at h
      obtain ⟨k2, hk2, hk3⟩ := ih h
      exact ⟨k2, List.mem_cons_of_mem k hk2, hk3⟩

theorem scanBlocked_map_mem (s : List Char) : ∀ (prev : Option Char) (m : List Char),
    scanBlocked prev s = some m → m.map upChar ∈ blockedKeywords := by
  induction s with
  | nil => intro prev m h; cases h
  | cons c rest ih =>
    intro prev m h
    simp only [scanBlocked] at h
    cases hf : firstKwAt prev (c :: rest) blockedKeywords with
    | some m2 =>
      rw [hf] at h
      obtain ⟨k, hkmem, hktry⟩ := firstKwAt_some prev (c :: rest) m2 blockedKeywords hf
      obtain ⟨hm2, hci⟩ := tryKwAt_some prev (c :: rest) k m2 hktry
      have := ciMatchKw_take_map k (c :: rest) hci
      rw [← hm2] at this
      rw [← Option.some_inj.mp h, this]
      exact hkmem
    | none =>
      rw [hf] at h
      exact ih (some c) m h

theorem tryKwAt_congr_prev (p p2 : Option Char) (s k : List Char)
    (h : boundaryB p = boundaryB p2) : tryKwAt p s k = tryKwAt p2 s k := by
  unfold tryKwAt
  rw [h]

theorem firstKwAt_congr_prev (p p2 : Option Char) (s : List Char)
    (h : boundaryB p = boundaryB p2) :
    ∀ ks, firstKwAt p s ks = firstKwAt p2 s ks := by
  intro ks
  induction ks with
  | nil => rfl
  | cons k ks ih =>
    simp only [firstKwAt]
    rw [tryKwAt_congr_prev p p2 s k h, ih]

theorem scanBlocked_congr_prev (p p2 : Option Char) (s : List Char)
    (h : boundaryB p = boundaryB p2) : scanBlocked p s = scanBlocked p2 s := by
  cases s with
  | nil => rfl
  | cons c rest =>
    simp only [scanBlocked]
    rw [firstKwAt_congr_prev p p2 (c :: rest) h]

theorem tryKwAt_append (prev : Option Char) (w v k : List Char)
    (hk : k ∈ blockedKeywords) (hw : w ≠ [])
    (hnw : (∀ c, w.getLast? = some c → isWordChar c = false) ∨
      (∀ c, v.head? = some c → isWordChar c = false)) :
    tryKwAt prev (w ++ v) k = tryKwAt prev w k := by
  rcases Nat.lt_trichotomy k.length w.length with hlen | hlen | hlen
  · unfold tryKwAt
    rw [ciMatchKw_append_of_le k w v (Nat.le_of_lt hlen)]
    have hdrop : ((w ++ v).drop k.length).head? = (w.drop k.length).head? := by
      rw [List.drop_append_of_le_length (Nat.le_of_lt hlen)]
      cases hd : w.drop k.length with
      | nil =>
        have := List.length_drop k.length w
        rw [hd] at this
        simp at this
        omega
      | cons d t => simp
    rw [hdrop, List.take_append_of_le_length (Nat.le_of_lt hlen)]
  · by_cases hci : ciMatchKw k w = true
    · rcases hnw with hnw | hnw
      · exfalso
        obtain ⟨d, hd⟩ : ∃ d, w.getLast? = some d := by
          cases hwl : w.getLast? with
          | none => exact absurd (List.getLast?_eq_none_iff.mp hwl) hw
          | some d => exact ⟨d, rfl⟩
        have hdw : isWordChar d = true := by
          apply mem_word_of_ciMatch k hk w hci
          rw [hlen, List.take_of_length_le (le_refl _)]
          exact List.mem_of_getLast?_eq_some hd
        rw [hnw d hd] at hdw
        cases hdw
      · unfold tryKwAt
        rw [ciMatchKw_append_of_le k w v (Nat.le_of_eq hlen)]
        have hdrop : ((w ++ v).drop k.length).head? = v.head? := by
          rw [hlen, List.drop_append_of_le_length (le_refl _),
            List.drop_of_length_le (le_refl _)]
          simp
        have hdrop2 : (w.drop k.length).head? = none := by
          rw [hlen, List.drop_of_length_le (le_refl _)]
          rfl
        have hbv : boundaryB v.head? = true := by
          cases hvh : v.head? with
          | none => rfl
          | some d => simp [boundaryB, hnw d hvh]
        rw [hdrop, hdrop2, hbv]
        have hbn : boundaryB none = true := rfl
        rw [hbn, hlen, List.take_append_of_le_length (le_refl _)]
    · have hcif : ciMatchKw k w = false := by
        cases hc2 : ciMatchKw k w
        · rfl
        · exact absurd hc2 hci
      unfold tryKwAt
      rw [ciMatchKw_append_of_le k w v (Nat.le_of_eq hlen), hcif]
      simp
  · have hciw : ciMatchKw k w = false := by
      cases hc : ciMatchKw k w
      · rfl
      · exact absurd (ciMatchKw_length_le k w hc) (by omega)
    have hciwv : ciMatchKw k (w ++ v) = false := by
      cases hc : ciMatchKw k (w ++ v)
      · rfl
      · exfalso
        obtain ⟨hws, d, v2, hv, hdw⟩ := straddle_words k w v hk hc hlen
        rcases hnw with hnw | hnw
        · obtain ⟨e, he⟩ : ∃ e, w.getLast? = some e := by
            cases hwl : w.getLast? with
            | none => exact absurd (List.getLast?_eq_none_iff.mp hwl) hw
            | some e => exact ⟨e, rfl⟩
          have := hws e (List.mem_of_getLast?_eq_some he)
          rw [hnw e he] at this
          cases this
        · have := hnw d (by rw [hv]; rfl)
          rw [this] at hdw
          cases hdw
    unfold tryKwAt
    rw [hciw, hciwv]
    simp

theorem firstKwAt_append (prev : Option Char) (w v : List Char) (hw : w ≠ [])
    (hnw : (∀ c, w.getLast? = some c → isWordChar c = false) ∨
      (∀ c, v.head? = some c → isWordChar c = false)) :
    ∀ ks, (∀ k ∈ ks, k ∈ blockedKeywords) →
      firstKwAt prev (w ++ v) ks = firstKwAt prev w ks := by
  intro ks hks
  induction ks with
  | nil => rfl
  | cons k ks ih =>
    simp only [firstKwAt]
    rw [tryKwAt_append prev w v k (hks k (List.mem_cons_self k ks)) hw hnw,
      ih (fun k2 h2 => hks k2 (List.mem_cons_of_mem k h2))]

theorem scanBlocked_append (v : List Char) : ∀ (u : List Char) (prev : Option Char),
    ((∀ c, u.getLast? = some c → isWordChar c = false) ∨
      (∀ c, v.head? = some c → isWordChar c = false)) →
    scanBlocked prev (u ++ v) =
      match scanBlocked prev u with
      | some m => some m
      | none => scanBlocked (lastOr prev u) v := by
  intro u
  induction u with
  | nil => intro prev _; rfl
  | cons c u ih =>
    intro prev hnw
    have hnw2 : (∀ x, u.getLast? = some x → isWordChar x = false) ∨
        (∀ x, v.head? = some x → isWordChar x = false) := by
      rcases hnw with h | h
      · left
        intro x hx
        apply h
        cases u with
        | nil => simp at hx
        | cons d u2 => rw [← hx]; simp [List.getLast?_cons_cons]
      · right
        exact h
    have hfirst : firstKwAt prev ((c :: u) ++ v) blockedKeywords =
        firstKwAt prev (c :: u) blockedKeywords :=
      firstKwAt_append prev (c :: u) v (by simp) hnw blockedKeywords (fun _ h => h)
    rw [List.cons_append]
    have hunf : scanBlocked prev (c :: (u ++ v)) =
        match firstKwAt prev (c :: (u ++ v)) blockedKeywords with
        | some m => some m
        | none => scanBlocked (some c) (u ++ v) := rfl
    have hunf2 : scanBlocked prev (c :: u) =
        match firstKwAt prev (c :: u) blockedKeywords with
        | some m => some m
        | none => scanBlocked (some c) u := rfl
    rw [List.cons_append] at hfirst
    rw [hunf, hfirst, hunf2, lastOr_cons]
    cases hk : firstKwAt prev (c :: u) blockedKeywords with
    | some m => rfl
    | none => exact ih (some c) hnw2

theorem scanBlocked_newline_cons (prev : Option Char) (z : List Char) :
    scanBlocked prev ('\n' :: z) = scanBlocked (some '\n') z := by
  have hfk : ∀ ks, (∀ k ∈ ks, k ∈ blockedKeywords) →
      firstKwAt prev ('\n' :: z) ks = none := by
    intro ks hks
    induction ks with
    | nil => rfl
    | cons k ks ih =>
      have hkb := hks k (List.mem_cons_self k ks)
      obtain ⟨ch, k2, hk2⟩ : ∃ ch k2, k = ch :: k2 := by
        cases k with
        | nil => exact absurd rfl (blockedKeywords_ne_nil _ hkb)
        | cons ch k2 => exact ⟨ch, k2, rfl⟩
      have hch := blockedKeywords_upper k hkb ch (by rw [hk2]; exact List.mem_cons_self ch k2)
      have hci : ciMatchKw k ('\n' :: z) = false := by
        rw [hk2]
        simp only [ciMatchKw, Bool.and_eq_false_iff]
        left
        simp only [decide_eq_false_iff_not]
        intro hup
        have h10 : upChar '\n' = '\n' := by decide
        rw [h10] at hup
        have : ('\n').toNat = ch.toNat := by rw [hup]
        have h2 : ('\n').toNat = 10 := by decide
        omega
      simp only [firstKwAt]
      have htk : tryKwAt prev ('\n' :: z) k = none := by
        unfold tryKwAt
        rw [hci]
        simp
      rw [htk]
      exact ih (fun k3 h3 => hks k3 (List.mem_cons_of_mem k h3))
  have hunf : scanBlocked prev ('\n' :: z) =
      match firstKwAt prev ('\n' :: z) blockedKeywords with
      | some m => some m
      | none => scanBlocked (some '\n') z := rfl
  rw [hunf, hfk blockedKeywords (fun _ h => h)]

theorem wfSegs_cons (sg : SqlSeg) (rest : List SqlSeg)
    (h : wfSegs (sg :: rest) = true) :
    segOk sg = true ∧ (∀ s2, rest.head? = some s2 → segPairOk sg s2 = true) ∧
      wfSegs rest = true := by
  cases rest with
  | nil =>
    have h2 : (segOk sg && true && wfSegs ([] : List SqlSeg)) = true := h
    simp only [Bool.and_eq_true] at h2
    refine ⟨h2.1.1, ?_, rfl⟩
    intro s2 hs2
    cases hs2
  | cons s3 rest2 =>
    have h2 : (segOk sg && segPairOk sg s3 && wfSegs (s3 :: rest2)) = true := h
    simp only [Bool.and_eq_true] at h2
    obtain ⟨⟨ha, hb⟩, hc⟩ := h2
    refine ⟨ha, ?_, hc⟩
    intro s2 hs2
    have he : s3 = s2 := by simpa using hs2
    rw [← he]
    exact hb

theorem blockRender_no_dd (b : List Char) (h : hasPair '-' '-' b = false) :
    hasPair '-' '-' ('/' :: '*' :: (b ++ ['*', '/'])) = false := by
  have h1 : hasPair '-' '-' (b ++ ['*', '/']) = false := by
    apply hasPair_append_false _ _ b _ h (by decide)
    rintro ⟨_, hh⟩
    simp at hh
  rw [hasPair_cons, hasPair_cons, h1]
  simp

theorem blockRender_getLast (b : List Char) :
    ('/' :: '*' :: (b ++ ['*', '/'])).getLast? = some '/' := by
  rw [show '/' :: '*' :: (b ++ ['*', '/']) = ('/' :: '*' :: b) ++ ['*', '/'] by simp,
    List.getLast?_append_of_ne_nil _ (by simp)]
  rfl

theorem slGo_renderSql (segs : List SqlSeg) (h : wfSegs segs = true) :
    slGo .norm (renderSql segs) = midRender segs := by
  induction segs with
  | nil => rfl
  | cons sg rest ih =>
    obtain ⟨hok, hpair, hrest⟩ := wfSegs_cons sg rest h
    rw [show renderSql (sg :: rest) = renderSeg sg ++ renderSql rest by
        simp [renderSql],
      show midRender (sg :: rest) = midSeg sg ++ midRender rest by simp [midRender]]
    cases sg with
    | code c =>
      simp only [segOk, Bool.and_eq_true, Bool.not_eq_true'] at hok
      obtain ⟨⟨hne, hdd⟩, hsl⟩ := hok
      rw [show renderSeg (SqlSeg.code c) = c from rfl,
        show midSeg (SqlSeg.code c) = c from rfl]
      rw [slGo_norm_append (renderSql rest) c hdd ?hspan]
      · rw [ih hrest]
      case hspan =>
        rintro ⟨hl, hh⟩
        cases rest with
        | nil => simp [renderSql] at hh
        | cons s2 rest2 =>
          have hp := hpair s2 rfl
          cases s2 with
          | code c2 => simp [segPairOk] at hp
          | lineComment t =>
            simp only [segPairOk, Bool.not_eq_true', decide_eq_false_iff_not] at hp
            apply hp
            rw [List.getLastD_eq_getLast?, hl]
            rfl
          | blockComment b =>
            have hhd : (renderSql (SqlSeg.blockComment b :: rest2)).head? = some '/' := by
              simp [renderSql, renderSeg]
            rw [hhd] at hh
            simp at hh
    | lineComment t =>
      simp only [segOk, decide_eq_true_eq] at hok
      rw [show renderSeg (SqlSeg.lineComment t) = '-' :: '-' :: (t ++ ['\n']) from rfl,
        slGo_line_piece t (renderSql rest) hok, ih hrest]
      rfl
    | blockComment b =>
      simp only [segOk, Bool.and_eq_true, Bool.not_eq_true'] at hok
      obtain ⟨hdd, hsl⟩ := hok
      rw [show renderSeg (SqlSeg.blockComment b) = '/' :: '*' :: (b ++ ['*', '/'])
          from rfl]
      rw [slGo_norm_append (renderSql rest) _ (blockRender_no_dd b hdd) ?hbspan]
      · rw [ih hrest]
        rfl
      case hbspan =>
        rintro ⟨hl, _⟩
        rw [blockRender_getLast b] at hl
        simp at hl

theorem sbGo_midRender (segs : List SqlSeg) (h : wfSegs segs = true) :
    ∀ acc, sbGo .norm acc (midRender segs) = strippedRender segs := by
  induction segs with
  | nil => intro acc; rfl
  | cons sg rest ih =>
    intro acc
    obtain ⟨hok, hpair, hrest⟩ := wfSegs_cons sg rest h
    rw [show midRender (sg :: rest) = midSeg sg ++ midRender rest by simp [midRender],
      show strippedRender (sg :: rest) = strippedSeg sg ++ strippedRender rest by
        simp [strippedRender]]
    cases sg with
    | code c =>
      simp only [segOk, Bool.and_eq_true, Bool.not_eq_true'] at hok
      obtain ⟨⟨hne, hdd⟩, hsl⟩ := hok
      rw [show midSeg (SqlSeg.code c) = c from rfl,
        show strippedSeg (SqlSeg.code c) = c from rfl]
      rw [sbGo_norm_append (midRender rest) c acc hsl ?hspan]
      · rw [ih hrest acc]
      case hspan =>
        rintro ⟨hl, hh⟩
        cases rest with
        | nil => simp [midRender] at hh
        | cons s2 rest2 =>
          cases s2 with
          | code c2 =>
            have hp := hpair _ rfl
            simp [segPairOk] at hp
          | lineComment t =>
            have hhd : (midRender (SqlSeg.lineComment t :: rest2)).head? = some '\n' := by
              simp [midRender, midSeg]
            rw [hhd] at hh
            simp at hh
          | blockComment b =>
            have hhd : (midRender (SqlSeg.blockComment b :: rest2)).head? = some '/' := by
              simp [midRender, midSeg]
            rw [hhd] at hh
            simp at hh
    | lineComment t =>
      rw [show midSeg (SqlSeg.lineComment t) = ['\n'] from rfl,
        show strippedSeg (SqlSeg.lineComment t) = ['\n'] from rfl]
      have hstep : sbGo .norm acc ('\n' :: midRender rest) =
          '\n' :: sbGo .norm acc (midRender rest) := by
        simp [sbGo]
      rw [List.singleton_append, hstep, ih hrest acc]
      rfl
    | blockComment b =>
      simp only [segOk, Bool.and_eq_true, Bool.not_eq_true'] at hok
      obtain ⟨hdd, hsl⟩ := hok
      rw [show midSeg (SqlSeg.blockComment b) = '/' :: '*' :: (b ++ ['*', '/'])
          from rfl,
        show strippedSeg (SqlSeg.blockComment b) = [] from rfl,
        sbGo_block_piece b (midRender rest) acc hsl, ih hrest []]
      rfl

theorem stripComments_renderSql (segs : List SqlSeg) (h : wfSegs segs = true) :
    stripComments (renderSql segs) = strippedRender segs := by
  unfold stripComments stripLineComments stripBlockComments
  rw [slGo_renderSql segs h, sbGo_midRender segs h []]

theorem scanBlocked_strippedRender (segs : List SqlSeg) (h : wfSegs segs = true) :
    ∀ prev, (boundaryB prev = true ∨ headIsLine segs = true) →
      (scanBlocked prev (strippedRender segs)).isSome = segs.any segHasKw := by
  induction segs with
  | nil => intro prev _; rfl
  | cons sg rest ih =>
    intro prev hb
    obtain ⟨hok, hpair, hrest⟩ := wfSegs_cons sg rest h
    rw [show strippedRender (sg :: rest) = strippedSeg sg ++ strippedRender rest by
      simp [strippedRender]]
    cases sg with
    | code c =>
      have hbp : boundaryB prev = true := by
        rcases hb with hb | hb
        · exact hb
        · simp [headIsLine] at hb
      simp only [segOk, Bool.and_eq_true, Bool.not_eq_true'] at hok
      obtain ⟨⟨hne, hdd⟩, hsl⟩ := hok
      have hcne : c ≠ [] := by
        intro hnil
        rw [hnil] at hne
        simp at hne
      have hsplit : (∀ x, c.getLast? = some x → isWordChar x = false) ∨
          (∀ x, (strippedRender rest).head? = some x → isWordChar x = false) := by
        cases rest with
        | nil =>
          right
          intro x hx
          simp [strippedRender] at hx
        | cons s2 rest2 =>
          cases s2 with
          | code c2 =>
            have hp := hpair _ rfl
            simp [segPairOk] at hp
          | lineComment t =>
            right
            intro x hx
            have hhd : (strippedRender (SqlSeg.lineComment t :: rest2)).head? =
                some '\n' := by
              simp [strippedRender, strippedSeg]
            rw [hhd] at hx
            have hx2 : '\n' = x := by simpa using hx
            subst hx2
            decide
          | blockComment b =>
            left
            intro x hx
            have hp := hpair _ rfl
            simp only [segPairOk, Bool.not_eq_true'] at hp
            rw [List.getLastD_eq_getLast?, hx] at hp
            exact hp
      rw [show strippedSeg (SqlSeg.code c) = c from rfl,
        scanBlocked_append (strippedRender rest) c prev hsplit]
      have hcode : scanBlocked prev c = scanBlocked none c :=
        scanBlocked_congr_prev prev none c (by rw [hbp]; rfl)
      rw [hcode]
      cases hsc : scanBlocked none c with
      | some m =>
        simp [List.any_cons, segHasKw, hsc]
      | none =>
        show (scanBlocked (lastOr prev c) (strippedRender rest)).isSome = _
        have he : c.getLast? = some (c.getLast hcne) :=
          List.getLast?_eq_getLast c hcne
        have hlastor : lastOr prev c = some (c.getLast hcne) := by
          simp [lastOr, he]
        have hany : (SqlSeg.code c :: rest).any segHasKw = rest.any segHasKw := by
          simp [List.any_cons, segHasKw, hsc]
        rw [hany]
        cases rest with
        | nil =>
          show (scanBlocked (lastOr prev c) []).isSome = _
          rfl
        | cons s2 rest2 =>
          cases s2 with
          | code c2 =>
            have hp := hpair _ rfl
            simp [segPairOk] at hp
          | lineComment t =>
            exact ih hrest (lastOr prev c) (Or.inr rfl)
          | blockComment b =>
            have hp := hpair _ rfl
            simp only [segPairOk, Bool.not_eq_true'] at hp
            rw [List.getLastD_eq_getLast?, he] at hp
            apply ih hrest (lastOr prev c)
            left
            rw [hlastor]
            have hp2 : isWordChar (c.getLast hcne) = false := by
              simpa using hp
            simp [boundaryB, hp2]
    | lineComment t =>
      rw [show strippedSeg (SqlSeg.lineComment t) = ['\n'] from rfl,
        List.singleton_append, scanBlocked_newline_cons prev (strippedRender rest),
        ih hrest (some '\n') (Or.inl (by decide))]
      simp [List.any_cons, segHasKw]
    | blockComment b =>
      rw [show strippedSeg (SqlSeg.blockComment b) = [] from rfl, List.nil_append]
      have hbp : boundaryB prev = true := by
        rcases hb with hb | hb
        · exact hb
        · simp [headIsLine] at hb
      rw [ih hrest prev (Or.inl hbp)]
      simp [List.any_cons, segHasKw]

/-- C1 amended: on SQL decomposed into code, `--` line comments and
terminated `/* */` block comments — with block-comment text free of `--`
and block comments delimited by non-word characters on both sides
(`wfSegs`) — `_validate_readonly` raises exactly when some code (i.e.
outside-comment) segment contains a whole-word, case-insensitive
denylisted keyword; keywords occurring only inside the comments never
trigger the error; and the raised error always names a denylisted
keyword (the matched text upper-cases to a denylist entry). -/
theorem validateReadonly_segments (segs : List SqlSeg) (h : wfSegs segs = true) :
    (validateReadonly (renderSql segs)).isSome = segs.any segHasKw ∧
      ∀ m, validateReadonly (renderSql segs) = some m →
        m.map upChar ∈ blockedKeywords := by
  constructor
  · rw [validateReadonly, stripComments_renderSql segs h]
    exact scanBlocked_strippedRender segs h none (Or.inl rfl)
  · intro m hm
    rw [validateReadonly] at hm
    exact scanBlocked_map_mem _ none m hm

/-- Witness for the amended C1: a statement whose only `DELETE` sits in a
block comment is well-formed, has no code keyword, and passes. -/
theorem validateReadonly_segments_witness :
    wfSegs [SqlSeg.code "SELECT x FROM t ".toList,
        SqlSeg.blockComment " DELETE then -".toList,
        SqlSeg.code " WHERE 1=1".toList] = true ∧
      (validateReadonly (renderSql [SqlSeg.code "SELECT x FROM t ".toList,
          SqlSeg.blockComment " DELETE then -".toList,
          SqlSeg.code " WHERE 1=1".toList])).isSome =
        [SqlSeg.code "SELECT x FROM t ".toList,
          SqlSeg.blockComment " DELETE then -".toList,
          SqlSeg.code " WHERE 1=1".toList].any segHasKw ∧
      [SqlSeg.code "SELECT x FROM t ".toList,
        SqlSeg.blockComment " DELETE then -".toList,
        SqlSeg.code " WHERE 1=1".toList].any segHasKw = false :=
  ⟨by decide,
    (validateReadonly_segments _ (by decide)).1,
    by decide⟩

/-! ### C6: `find_join_path` BFS -/

/-- Destructing a true Boolean conjunction. -/
lemma andE {a b : Bool} (h : (a && b) = true) : a = true ∧ b = true := by
  simp only [Bool.and_eq_true] at h
  exact h

/-- Assembling a true Boolean conjunction. -/
lemma andI {a b : Bool} (h1 : a = true) (h2 : b = true) : (a && b) = true := by
  simp only [Bool.and_eq_true]
  exact ⟨h1, h2⟩

/-- Unfolding equation of `chainOk` on a list of two or more nodes. -/
lemma chainOk_cons2 (adj : List (String × List String)) (a b : String)
    (l : List String) :
    chainOk adj (a :: b :: l) =
      (decide (b ∈ adjGet adj a) && chainOk adj (b :: l)) := rfl

/-- A chain stays a chain after dropping its first node. -/
lemma chainOk_of_cons (adj : List (String × List String)) (a : String)
    (rest : List String) (h : chainOk adj (a :: rest) = true) :
    chainOk adj rest = true := by
  cases rest with
  | nil => rfl
  | cons b l =>
    rw [chainOk_cons2] at h
    exact (andE h).2

/-- A chain stays a chain after dropping a prefix. -/
lemma chainOk_append_right (adj : List (String × List String)) :
    ∀ u v : List String, chainOk adj (u ++ v) = true → chainOk adj v = true
  | [], _, h => h
  | a :: u, v, h => by
    rw [List.cons_append] at h
    exact chainOk_append_right adj u v (chainOk_of_cons adj a (u ++ v) h)

/-- A chain stays a chain after dropping a suffix. -/
lemma chainOk_append_left (adj : List (String × List String)) :
    ∀ u v : List String, chainOk adj (u ++ v) = true → chainOk adj u = true
  | [], _, _ => rfl
  | [_], _, _ => rfl
  | a :: b :: u, v, h => by
    rw [List.cons_append, List.cons_append, chainOk_cons2] at h
    rcases andE h with ⟨h1, h2⟩
    rw [chainOk_cons2]
    exact andI h1
      (chainOk_append_left adj (b :: u) v (by rw [List.cons_append]; exact h2))

/-- The default value of `getLastD` is irrelevant on a nonempty list. -/
lemma getLastD_irrel (l : List String) (d1 d2 : String) (h : l ≠ []) :
    l.getLastD d1 = l.getLastD d2 := by
  cases l with
  | nil => exact absurd rfl h
  | cons a l => simp only [List.getLastD_cons]

/-- Two chains sharing a graph edge at the junction glue to one chain. -/
lemma chainOk_glue (adj : List (String × List String)) :
    ∀ (p : List String) (x : String) (s : List String), p ≠ [] →
      chainOk adj p = true → x ∈ adjGet adj (p.getLastD "") →
      chainOk adj (x :: s) = true → chainOk adj (p ++ x :: s) = true
  | [], _, _, h, _, _, _ => absurd rfl h
  | [a], x, s, _, _, hx, hs => by
    rw [List.singleton_append, chainOk_cons2]
    exact andI (decide_eq_true hx) hs
  | a :: b :: p, x, s, _, hc, hx, hs => by
    rw [chainOk_cons2] at hc
    rcases andE hc with ⟨h1, h2⟩
    rw [List.cons_append, List.cons_append, chainOk_cons2]
    refine andI h1 ?_
    refine chainOk_glue adj (b :: p) x s (by simp) h2 ?_ hs
    have he : (a :: b :: p).getLastD "" = (b :: p).getLastD "" := by
      simp only [List.getLastD_cons]
    rw [← he]
    exact hx

/-- Extending a chain by one adjacent node. -/
lemma chainOk_append_singleton (adj : List (String × List String))
    (p : List String) (x : String) (hp : p ≠ [])
    (hc : chainOk adj p = true) (hx : x ∈ adjGet adj (p.getLastD "")) :
    chainOk adj (p ++ [x]) = true :=
  chainOk_glue adj p x [] hp hc hx rfl

/-- A chain crossing a junction contains the junction edge. -/
lemma chainOk_mid_edge (adj : List (String × List String)) :
    ∀ (p : List String) (x : String) (s : List String), p ≠ [] →
      chainOk adj (p ++ x :: s) = true → x ∈ adjGet adj (p.getLastD "")
  | [], _, _, h, _ => absurd rfl h
  | [a], x, s, _, hc => by
    rw [List.singleton_append, chainOk_cons2] at hc
    exact of_decide_eq_true (andE hc).1
  | a :: b :: p, x, s, _, hc => by
    rw [List.cons_append, List.cons_append, chainOk_cons2] at hc
    have h2 := (andE hc).2
    have hr := chainOk_mid_edge adj (b :: p) x s (by simp)
      (by rw [List.cons_append]; exact h2)
    have he : (a :: b :: p).getLastD "" = (b :: p).getLastD "" := by
      simp only [List.getLastD_cons]
    rw [he]
    exact hr

/-- Last element of a list that meets another list: split off the final
such occurrence. -/
lemma exists_last_mem : ∀ (l w : List String), (∃ y ∈ l, y ∈ w) →
    ∃ pre z suf, l = pre ++ z :: suf ∧ z ∈ w ∧ ∀ y ∈ suf, y ∉ w
  | [], _, h => absurd h (by simp)
  | a :: l, w, h => by
    by_cases hl : ∃ y ∈ l, y ∈ w
    · obtain ⟨pre, z, suf, he, hz, hs⟩ := exists_last_mem l w hl
      exact ⟨a :: pre, z, suf, by rw [he]; rfl, hz, hs⟩
    · have ha : a ∈ w := by
        rcases h with ⟨y, hy, hyw⟩
        rcases List.mem_cons.mp hy with rfl | hy2
        · exact hyw
        · exact absurd ⟨y, hy2, hyw⟩ hl
      exact ⟨[], a, l, rfl, ha, fun y hy hyw => hl ⟨y, hy, hyw⟩⟩

/-- A list with a repeated element splits around the repetition. -/
lemma exists_dup_decomp : ∀ (l : List String), ¬ l.Nodup →
    ∃ a A B C, l = A ++ a :: (B ++ a :: C)
  | [], h => absurd List.nodup_nil h
  | x :: l, h => by
    by_cases hx : x ∈ l
    · obtain ⟨s, t, he⟩ := List.append_of_mem hx
      exact ⟨x, [], s, t, by rw [he]; rfl⟩
    · have hl : ¬ l.Nodup := fun hn => h (List.nodup_cons.mpr ⟨hx, hn⟩)
      obtain ⟨a, A, B, C, he⟩ := exists_dup_decomp l hl
      exact ⟨a, x :: A, B, C, by rw [he]; rfl⟩

/-- C6 is false as stated: on tables `Erp.A`–`Erp.C`–`Erp.B`, both
endpoints resolve and a join path `A`–`C`–`B` exists in the adjacency
graph, yet `find_join_path(A, B, max_depth=1)` returns no path at all, so
no shortest path is among the returned ones.  (The claim's "if any path
exists" ignores that the search abandons branches at `max_depth` edges.) -/
theorem findJoinPath_shortest_claim_false :
    isJoinPath (loadCache c6Tables c6Fks).adjacency "Erp.A" "Erp.B"
        ["Erp.A", "Erp.C", "Erp.B"] = true ∧
      resolveTable (loadCache c6Tables c6Fks) "A" none = some ⟨"Erp", "A", "T"⟩ ∧
      resolveTable (loadCache c6Tables c6Fks) "B" none = some ⟨"Erp", "B", "T"⟩ ∧
      findJoinPath (loadCache c6Tables c6Fks) "A" "B" none none 1 = [] := by
  decide

/-- Characterisation of one neighbour sweep of the BFS: the queue gains
entries `path + [nb]` at depth `depth + 1` for exactly the newly visited
nodes `w`; the visited set gains exactly `w`, a duplicate-free batch of
fresh non-target neighbours; the recorded paths gain copies of
`path + [endT]`, at least one when the target is a neighbour; and every
non-target neighbour ends up visited. -/
lemma bfsExpand_spec (pth : List String) (depth : Nat) (endT : String) :
    ∀ (l : List String) (q : List (List String × Nat)) (vis : List String)
      (ps : List (List String)),
    ∃ t w u,
      bfsExpand pth depth endT l q vis ps = (q ++ t, w ++ vis, ps ++ u) ∧
      (∀ e ∈ t, ∃ nb, nb ∈ w ∧ e = (pth ++ [nb], depth + 1)) ∧
      (∀ x ∈ w, (pth ++ [x], depth + 1) ∈ t) ∧
      (∀ x ∈ w, x ∈ l ∧ x ≠ endT ∧ x ∉ vis) ∧
      w.Nodup ∧
      t.length = w.length ∧
      (∀ r ∈ u, r = pth ++ [endT] ∧ endT ∈ l) ∧
      (endT ∈ l → pth ++ [endT] ∈ ps ++ u) ∧
      (∀ y ∈ l, y ≠ endT → y ∈ w ∨ y ∈ vis) := by
  intro l
  induction l with
  | nil =>
    intro q vis ps
    refine ⟨[], [], [], ?_, ?_, ?_, ?_, List.nodup_nil, rfl, ?_, ?_, ?_⟩ <;>
      simp [bfsExpand]
  | cons nb l ih =>
    intro q vis ps
    by_cases he : nb = endT
    · obtain ⟨t, w, u, heq, ht, hwt, hw, hnd, hlen, hu, hrec, hcov⟩ :=
        ih q vis (ps ++ [pth ++ [nb]])
      refine ⟨t, w, (pth ++ [nb]) :: u, ?_, ht, hwt, ?_, hnd, hlen, ?_, ?_, ?_⟩
      · simp only [bfsExpand, if_pos he]
        rw [heq]
        simp
      · intro x hx
        obtain ⟨h1, h2, h3⟩ := hw x hx
        exact ⟨List.mem_cons_of_mem nb h1, h2, h3⟩
      · intro r hr
        rcases List.mem_cons.mp hr with rfl | hr2
        · exact ⟨by rw [he], by rw [← he]; exact List.mem_cons_self nb l⟩
        · obtain ⟨h1, h2⟩ := hu r hr2
          exact ⟨h1, List.mem_cons_of_mem nb h2⟩
      · intro _
        rw [← he]
        exact List.mem_append_right _ (List.mem_cons_self _ _)
      · intro y hy hyne
        rcases List.mem_cons.mp hy with rfl | hy2
        · exact absurd he hyne
        · exact hcov y hy2 hyne
    · by_cases hv : nb ∈ vis
      · obtain ⟨t, w, u, heq, ht, hwt, hw, hnd, hlen, hu, hrec, hcov⟩ := ih q vis ps
        refine ⟨t, w, u, ?_, ht, hwt, ?_, hnd, hlen, ?_, ?_, ?_⟩
        · simp only [bfsExpand, if_neg he, if_pos hv]
          exact heq
        · intro x hx
          obtain ⟨h1, h2, h3⟩ := hw x hx
          exact ⟨List.mem_cons_of_mem nb h1, h2, h3⟩
        · intro r hr
          obtain ⟨h1, h2⟩ := hu r hr
          exact ⟨h1, List.mem_cons_of_mem nb h2⟩
        · intro hin
          rcases List.mem_cons.mp hin with h | h
          · exact absurd h.symm he
          · exact hrec h
        · intro y hy hyne
          rcases List.mem_cons.mp hy with rfl | hy2
          · exact Or.inr hv
          · exact hcov y hy2 hyne
      · obtain ⟨t, w, u, heq, ht, hwt, hw, hnd, hlen, hu, hrec, hcov⟩ :=
          ih (q ++ [(pth ++ [nb], depth + 1)]) (nb :: vis) ps
        have hwnb : ∀ x ∈ w, x ≠ nb := by
          intro x hx hh
          exact (hw x hx).2.2 (hh ▸ List.mem_cons_self nb vis)
        refine ⟨(pth ++ [nb], depth + 1) :: t, w ++ [nb], u, ?_, ?_, ?_, ?_, ?_,
          ?_, ?_, ?_, ?_⟩
        · simp only [bfsExpand, if_neg he, if_neg hv]
          rw [heq]
          simp
        · intro e2 he2
          rcases List.mem_cons.mp he2 with rfl | he3
          · exact ⟨nb, List.mem_append_right w (List.mem_singleton.mpr rfl), rfl⟩
          · obtain ⟨nb2, h1, h2⟩ := ht e2 he3
            exact ⟨nb2, List.mem_append_left _ h1, h2⟩
        · intro x hx
          rcases List.mem_append.mp hx with h | h
          · exact List.mem_cons_of_mem _ (hwt x h)
          · rw [List.mem_singleton.mp h]
            exact List.mem_cons_self _ _
        · intro x hx
          rcases List.mem_append.mp hx with h | h
          · obtain ⟨h1, h2, h3⟩ := hw x h
            exact ⟨List.mem_cons_of_mem nb h1, h2,
              fun hxv => h3 (List.mem_cons_of_mem nb hxv)⟩
          · rw [List.mem_singleton.mp h]
            exact ⟨List.mem_cons_self nb l, he, hv⟩
        · exact hnd.append (List.nodup_singleton nb)
            (fun x hx hxs => hwnb x hx (List.mem_singleton.mp hxs))
        · simp [hlen]
        · intro r hr
          obtain ⟨h1, h2⟩ := hu r hr
          exact ⟨h1, List.mem_cons_of_mem nb h2⟩
        · intro hin
          rcases List.mem_cons.mp hin with h | h
          · exact absurd h.symm he
          · exact hrec h
        · intro y hy hyne
          rcases List.mem_cons.mp hy with rfl | hy2
          · exact Or.inl (List.mem_append_right w (List.mem_singleton.mpr rfl))
          · rcases hcov y hy2 hyne with h | h
            · exact Or.inl (List.mem_append_left _ h)
            · rcases List.mem_cons.mp h with rfl | h2
              · exact Or.inl (List.mem_append_right w (List.mem_singleton.mpr rfl))
              · exact Or.inr h2

/-- Filtering out one more, present, element of a duplicate-free list
shrinks the filtered length by exactly one. -/
lemma filter_notmem_cons_length : ∀ (l : List String), l.Nodup →
    ∀ (x : String), x ∈ l → ∀ (vis : List String), x ∉ vis →
    (l.filter (fun v => decide (v ∉ x :: vis))).length + 1 =
      (l.filter (fun v => decide (v ∉ vis))).length
  | [], _, x, hx, _, _ => absurd hx (by simp)
  | a :: l, hnd, x, hx, vis, hxv => by
    rcases List.nodup_cons.mp hnd with ⟨hal, hl⟩
    by_cases hax : a = x
    · subst hax
      have hcongr : l.filter (fun v => decide (v ∉ a :: vis)) =
          l.filter (fun v => decide (v ∉ vis)) := by
        apply List.filter_congr
        intro v hv
        have hva : v ≠ a := fun hh => hal (hh ▸ hv)
        exact decide_eq_decide.mpr (by simp [List.mem_cons, hva])
      have h1 : (decide (a ∉ a :: vis)) = false := by simp
      have h2 : (decide (a ∉ vis)) = true := by simpa using hxv
      rw [List.filter_cons, List.filter_cons, h1, h2, hcongr]
      simp
    · have hx2 : x ∈ l := by
        rcases List.mem_cons.mp hx with h | h
        · exact absurd h.symm hax
        · exact h
      have hrec := filter_notmem_cons_length l hl x hx2 vis hxv
      rw [List.filter_cons, List.filter_cons]
      by_cases hav : a ∈ vis
      · have h1 : (decide (a ∉ x :: vis)) = false := by
          simp [List.mem_cons, hav]
        have h2 : (decide (a ∉ vis)) = false := by simp [hav]
        rw [h1, h2]
        simpa using hrec
      · have h1 : (decide (a ∉ x :: vis)) = true := by
          simp [List.mem_cons, hax, hav]
        have h2 : (decide (a ∉ vis)) = true := by simp [hav]
        rw [h1, h2]
        simpa using hrec

/-- Neighbour lists returned by `adjGet` sit inside the flattened
adjacency pool. -/
lemma adjGet_subset_pool : ∀ (adj : List (String × List String)) (k : String),
    ∀ x ∈ adjGet adj k, x ∈ (adj.map (fun p => p.2)).flatten
  | [], k, x, hx => by simp [adjGet, dictGet] at hx
  | (k2, vs) :: adj, k, x, hx => by
    rw [adjGet_cons] at hx
    rw [List.map_cons, List.flatten_cons]
    by_cases hk : k2 = k
    · rw [if_pos hk] at hx
      exact List.mem_append_left _ hx
    · rw [if_neg hk] at hx
      exact List.mem_append_right _ (adjGet_subset_pool adj k x hx)

/-- Visiting one fresh pool node decreases the unvisited count by one. -/
lemma unvisitedCount_insert (adj : List (String × List String)) (x : String)
    (vis : List String) (hx : x ∈ (adj.map (fun p => p.2)).flatten)
    (hxv : x ∉ vis) :
    unvisitedCount adj (x :: vis) + 1 = unvisitedCount adj vis := by
  rw [unvisitedCount, unvisitedCount]
  exact filter_notmem_cons_length _ (List.nodup_dedup _) x
    (List.mem_dedup.mpr hx) vis hxv

/-- Visiting a duplicate-free batch of fresh pool nodes decreases the
unvisited count by the batch size. -/
lemma unvisitedCount_append (adj : List (String × List String)) :
    ∀ (w vis : List String), w.Nodup → (∀ x ∈ w, x ∉ vis) →
      (∀ x ∈ w, x ∈ (adj.map (fun p => p.2)).flatten) →
      unvisitedCount adj (w ++ vis) + w.length = unvisitedCount adj vis
  | [], vis, _, _, _ => by simp
  | a :: w, vis, hnd, hdisj, hpool => by
    rcases List.nodup_cons.mp hnd with ⟨haw, hw⟩
    have h1 : unvisitedCount adj (a :: (w ++ vis)) + 1 =
        unvisitedCount adj (w ++ vis) :=
      unvisitedCount_insert adj a (w ++ vis)
        (hpool a (List.mem_cons_self a w))
        (by
          intro hmem
          rcases List.mem_append.mp hmem with h | h
          · exact haw h
          · exact hdisj a (List.mem_cons_self a w) h)
    have h2 := unvisitedCount_append adj w vis hw
      (fun x hx => hdisj x (List.mem_cons_of_mem a hx))
      (fun x hx => hpool x (List.mem_cons_of_mem a hx))
    rw [List.cons_append, List.length_cons]
    omega

/-- The unvisited count never exceeds the pool size. -/
lemma unvisitedCount_le (adj : List (String × List String)) (vis : List String) :
    unvisitedCount adj vis ≤ ((adj.map (fun p => p.2)).flatten).length := by
  rw [unvisitedCount]
  exact le_trans (List.length_filter_le _ _)
    (List.Sublist.length_le (List.dedup_sublist _))

/-- Unfolding equation of `bfsLoop` on a nonempty queue. -/
lemma bfsLoop_cons (adj : List (String × List String)) (endT : String)
    (k fuel : Nat) (p0 : List String) (d0 : Nat)
    (rest : List (List String × Nat)) (vis : List String)
    (ps : List (List String)) :
    bfsLoop adj endT k (fuel + 1) ((p0, d0) :: rest) vis ps =
      if k ≤ d0 then bfsLoop adj endT k fuel rest vis ps
      else
        bfsLoop adj endT k fuel
          (bfsExpand p0 d0 endT (adjGet adj (p0.getLastD "")) rest vis ps).1
          (bfsExpand p0 d0 endT (adjGet adj (p0.getLastD "")) rest vis ps).2.1
          (bfsExpand p0 d0 endT (adjGet adj (p0.getLastD "")) rest vis ps).2.2 :=
  rfl

/-- Head membership for lists. -/
lemma mem_of_head?_some {α : Type} : ∀ (l : List α) (a : α),
    l.head? = some a → a ∈ l
  | [], a, h => by simp at h
  | b :: l, a, h => by
    rw [List.head?_cons, Option.some.injEq] at h
    rw [← h]
    exact List.mem_cons_self b l

/-- The path of a well-formed queue entry is nonempty. -/
lemma entry_path_ne_nil (adj : List (String × List String)) (start endT : String)
    (e : List String × Nat) (h : entryOk adj start endT e) : e.1 ≠ [] := by
  intro hnil
  have hh := h.1
  rw [hnil] at hh
  simp at hh

/-- Recorded paths only accumulate: the loop result extends `ps`. -/
lemma bfsLoop_paths_acc (adj : List (String × List String)) (endT : String)
    (k : Nat) : ∀ (fuel : Nat) (q : List (List String × Nat))
      (vis : List String) (ps : List (List String)),
    ∃ ext, bfsLoop adj endT k fuel q vis ps = ps ++ ext
  | 0, _, _, ps => ⟨[], by simp [bfsLoop]⟩
  | _ + 1, [], _, ps => ⟨[], by simp [bfsLoop]⟩
  | fuel + 1, (p0, d0) :: rest, vis, ps => by
    rw [bfsLoop_cons]
    by_cases hk : k ≤ d0
    · rw [if_pos hk]
      exact bfsLoop_paths_acc adj endT k fuel rest vis ps
    · rw [if_neg hk]
      obtain ⟨t, w, u, heq, -, -, -, -, -, -, -, -⟩ :=
        bfsExpand_spec p0 d0 endT (adjGet adj (p0.getLastD "")) rest vis ps
      obtain ⟨ext, hext⟩ := bfsLoop_paths_acc adj endT k fuel (rest ++ t)
        (w ++ vis) (ps ++ u)
      refine ⟨u ++ ext, ?_⟩
      rw [heq]
      show bfsLoop adj endT k fuel (rest ++ t) (w ++ vis) (ps ++ u) =
        ps ++ (u ++ ext)
      rw [hext, List.append_assoc]

/-- Well-formedness of queue entries survives one pop-and-expand step. -/
lemma entryOk_step (adj : List (String × List String)) (start endT : String)
    (p0 : List String) (d0 : Nat) (rest t : List (List String × Nat))
    (w : List String)
    (hq : ∀ e ∈ (p0, d0) :: rest, entryOk adj start endT e)
    (ht : ∀ e ∈ t, ∃ nb, nb ∈ w ∧ e = (p0 ++ [nb], d0 + 1))
    (hw : ∀ x ∈ w, x ∈ adjGet adj (p0.getLastD "") ∧ x ≠ endT) :
    ∀ e ∈ rest ++ t, entryOk adj start endT e := by
  intro e hmem
  rcases List.mem_append.mp hmem with h | h
  · exact hq e (List.mem_cons_of_mem _ h)
  · obtain ⟨nb, hnbw, rfl⟩ := ht e h
    obtain ⟨hh, hc, hend, hlen⟩ := hq (p0, d0) (List.mem_cons_self _ _)
    obtain ⟨hnb1, hnb2⟩ := hw nb hnbw
    have hp0 : p0 ≠ [] := entry_path_ne_nil adj start endT (p0, d0)
      (hq (p0, d0) (List.mem_cons_self _ _))
    refine ⟨?_, ?_, ?_, ?_⟩
    · cases p0 with
      | nil => exact absurd rfl hp0
      | cons a p0' => simpa using hh
    · exact chainOk_append_singleton adj p0 nb hp0 hc hnb1
    · intro hmem2
      rcases List.mem_append.mp hmem2 with h2 | h2
      · exact hend h2
      · exact hnb2 (List.mem_singleton.mp h2).symm
    · rw [List.length_append, hlen]
      simp

/-- Equal-depth entries are pairwise depth-ordered. -/
lemma pairwise_depth_const : ∀ (t : List (List String × Nat)) (c : Nat),
    (∀ e ∈ t, e.2 = c) → t.Pairwise (fun a b => a.2 ≤ b.2)
  | [], _, _ => List.Pairwise.nil
  | e :: t, c, h => by
    refine List.Pairwise.cons ?_ (pairwise_depth_const t c
      (fun x hx => h x (List.mem_cons_of_mem e hx)))
    intro b hb
    rw [h e (List.mem_cons_self e t), h b (List.mem_cons_of_mem e hb)]

/-- Equal-length paths are pairwise length-ordered. -/
lemma pairwise_len_const : ∀ (u : List (List String)) (c : Nat),
    (∀ r ∈ u, r.length = c) → u.Pairwise (fun a b => a.length ≤ b.length)
  | [], _, _ => List.Pairwise.nil
  | r :: u, c, h => by
    refine List.Pairwise.cons ?_ (pairwise_len_const u c
      (fun x hx => h x (List.mem_cons_of_mem r hx)))
    intro b hb
    rw [h r (List.mem_cons_self r u), h b (List.mem_cons_of_mem r hb)]

/-- Depth order of the queue survives one pop-and-expand step. -/
lemma qsort_step (rest t : List (List String × Nat)) (p0 : List String)
    (d0 : Nat)
    (hsort : ((p0, d0) :: rest).Pairwise (fun a b => a.2 ≤ b.2))
    (hbound : ∀ e ∈ (p0, d0) :: rest, e.2 ≤ d0 + 1)
    (htd : ∀ e ∈ t, e.2 = d0 + 1) :
    (rest ++ t).Pairwise (fun a b => a.2 ≤ b.2) := by
  rcases List.pairwise_cons.mp hsort with ⟨hd0, hrest⟩
  refine List.pairwise_append.mpr ⟨hrest, pairwise_depth_const t (d0 + 1) htd, ?_⟩
  intro a ha b hb
  rw [htd b hb]
  exact hbound a (List.mem_cons_of_mem _ ha)

/-- The one-level depth bound of the queue survives one pop-and-expand
step. -/
lemma qbound_step (rest t : List (List String × Nat)) (p0 : List String)
    (d0 : Nat)
    (hsort : ((p0, d0) :: rest).Pairwise (fun a b => a.2 ≤ b.2))
    (hbound : ∀ e ∈ (p0, d0) :: rest, e.2 ≤ d0 + 1)
    (htd : ∀ e ∈ t, e.2 = d0 + 1) :
    ∀ e ∈ rest ++ t, ∀ e0, (rest ++ t).head? = some e0 → e.2 ≤ e0.2 + 1 := by
  intro e he e0 he0
  have he0m := mem_of_head?_some (rest ++ t) e0 he0
  have hd0e0 : d0 ≤ e0.2 := by
    rcases List.mem_append.mp he0m with h | h
    · exact (List.pairwise_cons.mp hsort).1 e0 h
    · rw [htd e0 h]
      omega
  rcases List.mem_append.mp he with h | h
  · have := hbound e (List.mem_cons_of_mem _ h)
    omega
  · rw [htd e h]
    omega

/-- Soundness of the BFS loop: from well-formed queue entries and
recorded paths, every path of the result is a join path from `start` to
`endT` of at most `k` edges. -/
lemma bfsLoop_sound (adj : List (String × List String)) (start endT : String)
    (k : Nat) : ∀ (fuel : Nat) (q : List (List String × Nat))
      (vis : List String) (ps : List (List String)),
    (∀ e ∈ q, entryOk adj start endT e) →
    (∀ r ∈ ps, recOk adj start endT k r) →
    ∀ r ∈ bfsLoop adj endT k fuel q vis ps, recOk adj start endT k r
  | 0, q, vis, ps, _, hp, r, hr => hp r (by simpa [bfsLoop] using hr)
  | _ + 1, [], vis, ps, _, hp, r, hr => hp r (by simpa [bfsLoop] using hr)
  | fuel + 1, (p0, d0) :: rest, vis, ps, hq, hp, r, hr => by
    rw [bfsLoop_cons] at hr
    by_cases hk : k ≤ d0
    · rw [if_pos hk] at hr
      exact bfsLoop_sound adj start endT k fuel rest vis ps
        (fun e he => hq e (List.mem_cons_of_mem _ he)) hp r hr
    · rw [if_neg hk] at hr
      obtain ⟨t, w, u, heq, ht, hwt, hw, hnd, hlen, hu, hrec, hcov⟩ :=
        bfsExpand_spec p0 d0 endT (adjGet adj (p0.getLastD "")) rest vis ps
      rw [heq] at hr
      obtain ⟨hh, hc, hend, hlenp⟩ := hq (p0, d0) (List.mem_cons_self _ _)
      have hp0 : p0 ≠ [] := entry_path_ne_nil adj start endT (p0, d0)
        (hq (p0, d0) (List.mem_cons_self _ _))
      refine bfsLoop_sound adj start endT k fuel (rest ++ t) (w ++ vis)
        (ps ++ u) ?_ ?_ r hr
      · exact entryOk_step adj start endT p0 d0 rest t w hq ht
          (fun x hx => ⟨(hw x hx).1, (hw x hx).2.1⟩)
      · intro r2 hr2
        rcases List.mem_append.mp hr2 with h | h
        · exact hp r2 h
        · obtain ⟨hr2e, hendl⟩ := hu r2 h
          rw [hr2e]
          constructor
          · simp only [isJoinPath, Bool.and_eq_true, Bool.not_eq_true',
              decide_eq_true_eq]
            refine ⟨⟨⟨?_, ?_⟩, ?_⟩, ?_⟩
            · simp
            · cases p0 with
              | nil => exact absurd rfl hp0
              | cons a p0' => simpa using hh
            · exact List.getLast?_concat _
            · exact chainOk_append_singleton adj p0 endT hp0 hc hendl
          · rw [List.length_append, hlenp]
            simp only [List.length_singleton]
            omega

/-- Ordering invariant of the BFS loop: with a depth-sorted queue whose
depths span at most two levels and length-sorted recorded paths shorter
than anything still to be recorded, the result is length-sorted. -/
lemma bfsLoop_rec_sorted (adj : List (String × List String))
    (start endT : String) (k : Nat) :
    ∀ (fuel : Nat) (q : List (List String × Nat))
      (vis : List String) (ps : List (List String)),
    (∀ e ∈ q, entryOk adj start endT e) →
    q.Pairwise (fun a b => a.2 ≤ b.2) →
    (∀ e ∈ q, ∀ e0, q.head? = some e0 → e.2 ≤ e0.2 + 1) →
    ps.Pairwise (fun a b => a.length ≤ b.length) →
    (∀ r ∈ ps, ∀ e ∈ q, r.length ≤ e.2 + 2) →
    (bfsLoop adj endT k fuel q vis ps).Pairwise
      (fun a b => a.length ≤ b.length)
  | 0, q, vis, ps, _, _, _, hps, _ => by simpa [bfsLoop] using hps
  | _ + 1, [], vis, ps, _, _, _, hps, _ => by simpa [bfsLoop] using hps
  | fuel + 1, (p0, d0) :: rest, vis, ps, hq, hsort, hbound, hps, hcross => by
    rw [bfsLoop_cons]
    have hbound_all : ∀ e ∈ (p0, d0) :: rest, e.2 ≤ d0 + 1 :=
      fun e he => hbound e he (p0, d0) rfl
    by_cases hk : k ≤ d0
    · rw [if_pos hk]
      refine bfsLoop_rec_sorted adj start endT k fuel rest vis ps
        (fun e he => hq e (List.mem_cons_of_mem _ he))
        (List.pairwise_cons.mp hsort).2 ?_ hps
        (fun r hr e he => hcross r hr e (List.mem_cons_of_mem _ he))
      intro e he e0 he0
      have he0m := mem_of_head?_some rest e0 he0
      have h1 : d0 ≤ e0.2 := (List.pairwise_cons.mp hsort).1 e0 he0m
      have h2 := hbound_all e (List.mem_cons_of_mem _ he)
      omega
    · rw [if_neg hk]
      obtain ⟨t, w, u, heq, ht, hwt, hw, hnd, hlen, hu, hrec, hcov⟩ :=
        bfsExpand_spec p0 d0 endT (adjGet adj (p0.getLastD "")) rest vis ps
      rw [heq]
      obtain ⟨hh, hc, hend, hlenp⟩ := hq (p0, d0) (List.mem_cons_self _ _)
      have htd : ∀ e ∈ t, e.2 = d0 + 1 := by
        intro e he
        obtain ⟨nb, -, rfl⟩ := ht e he
        rfl
      have hulen : ∀ r ∈ u, r.length = d0 + 2 := by
        intro r hr
        rw [(hu r hr).1, List.length_append, hlenp]
        simp
      show (bfsLoop adj endT k fuel (rest ++ t) (w ++ vis) (ps ++ u)).Pairwise
        (fun a b => a.length ≤ b.length)
      refine bfsLoop_rec_sorted adj start endT k fuel (rest ++ t) (w ++ vis)
        (ps ++ u)
        (entryOk_step adj start endT p0 d0 rest t w hq ht
          (fun x hx => ⟨(hw x hx).1, (hw x hx).2.1⟩))
        (qsort_step rest t p0 d0 hsort hbound_all htd)
        (qbound_step rest t p0 d0 hsort hbound_all htd) ?_ ?_
      · refine List.pairwise_append.mpr
          ⟨hps, pairwise_len_const u (d0 + 2) hulen, ?_⟩
        intro r hr r2 hr2
        rw [hulen r2 hr2]
        exact hcross r hr (p0, d0) (List.mem_cons_self _ _)
      · intro r hr e he
        rcases List.mem_append.mp hr with h | h
        · rcases List.mem_append.mp he with h2 | h2
          · exact hcross r h e (List.mem_cons_of_mem _ h2)
          · have h3 := hcross r h (p0, d0) (List.mem_cons_self _ _)
            rw [htd e h2]
            omega
        · rw [hulen r h]
          rcases List.mem_append.mp he with h2 | h2
          · have h3 : d0 ≤ e.2 := (List.pairwise_cons.mp hsort).1 e h2
            omega
          · rw [htd e h2]
            omega

/-- Completeness of the BFS loop.  If some queue entry extends, through
unvisited non-target nodes, to a chain reaching `endT` within the depth
budget, the loop records a path no longer than that extension.  The
induction tracks the pending extension across one pop-and-expand step:
either the target is a direct neighbour and the path is recorded, or the
tracked entry survives untouched, or the step visits some extension node,
in which case tracking switches to the newly enqueued entry at the last
such node (whatever was visited in between only shortens the budget). -/
lemma bfsLoop_pending (adj : List (String × List String))
    (start endT : String) (k : Nat) :
    ∀ (fuel : Nat) (q : List (List String × Nat)) (vis : List String)
      (ps : List (List String)) (pth : List String) (d : Nat)
      (ext : List String),
    q.length + unvisitedCount adj vis ≤ fuel →
    (∀ e ∈ q, entryOk adj start endT e) →
    q.Pairwise (fun a b => a.2 ≤ b.2) →
    (∀ e ∈ q, ∀ e0, q.head? = some e0 → e.2 ≤ e0.2 + 1) →
    (pth, d) ∈ q →
    chainOk adj (pth ++ ext ++ [endT]) = true →
    (∀ x ∈ ext, x ∉ vis) →
    endT ∉ ext →
    d + ext.length + 1 ≤ k →
    ∃ r ∈ bfsLoop adj endT k fuel q vis ps, r.length ≤ d + ext.length + 2 := by
  intro fuel
  induction fuel with
  | zero =>
    intro q vis ps pth d ext hfuel hq hsort hbound hmem hchain hvis hext hd
    have hne : q ≠ [] := List.ne_nil_of_mem hmem
    have hpos : 0 < q.length := List.length_pos.mpr hne
    omega
  | succ fuel ih =>
    intro q vis ps pth d ext hfuel hq hsort hbound hmem hchain hvis hext hd
    cases q with
    | nil => exact absurd hmem (by simp)
    | cons e0 rest =>
      obtain ⟨p0, d0⟩ := e0
      obtain ⟨hh0, hc0, hend0, hlen0⟩ := hq (p0, d0) (List.mem_cons_self _ _)
      have hp0 : p0 ≠ [] := entry_path_ne_nil adj start endT (p0, d0)
        (hq (p0, d0) (List.mem_cons_self _ _))
      have hd0d : d0 ≤ d := by
        rcases List.mem_cons.mp hmem with h | h
        · have hdd : d = d0 := congrArg Prod.snd h
          omega
        · exact (List.pairwise_cons.mp hsort).1 (pth, d) h
      have hbound_all : ∀ e ∈ (p0, d0) :: rest, e.2 ≤ d0 + 1 :=
        fun e he => hbound e he (p0, d0) rfl
      rw [bfsLoop_cons]
      have hd0k : ¬ k ≤ d0 := by omega
      rw [if_neg hd0k]
      obtain ⟨t, w, u, heq, ht, hwt, hw, hnd, hlen, hu, hrec, hcov⟩ :=
        bfsExpand_spec p0 d0 endT (adjGet adj (p0.getLastD "")) rest vis ps
      rw [heq]
      show ∃ r ∈ bfsLoop adj endT k fuel (rest ++ t) (w ++ vis) (ps ++ u),
        r.length ≤ d + ext.length + 2
      have htd : ∀ e ∈ t, e.2 = d0 + 1 := by
        intro e he
        obtain ⟨nb, -, rfl⟩ := ht e he
        rfl
      have hq2 : ∀ e ∈ rest ++ t, entryOk adj start endT e :=
        entryOk_step adj start endT p0 d0 rest t w hq ht
          (fun x hx => ⟨(hw x hx).1, (hw x hx).2.1⟩)
      have hsort2 := qsort_step rest t p0 d0 hsort hbound_all htd
      have hbound2 := qbound_step rest t p0 d0 hsort hbound_all htd
      have hfuel2 : (rest ++ t).length + unvisitedCount adj (w ++ vis) ≤
          fuel := by
        have hcnt := unvisitedCount_append adj w vis hnd
          (fun x hx => (hw x hx).2.2)
          (fun x hx => adjGet_subset_pool adj (p0.getLastD "") x (hw x hx).1)
        rw [List.length_append]
        simp only [List.length_cons] at hfuel
        omega
      have hswitch : (∃ y ∈ ext, y ∈ w) →
          ∃ r ∈ bfsLoop adj endT k fuel (rest ++ t) (w ++ vis) (ps ++ u),
            r.length ≤ d + ext.length + 2 := by
        intro hex
        obtain ⟨pre, z, suf, hdec, hzw, hsuf⟩ := exists_last_mem ext w hex
        have hzl : z ∈ adjGet adj (p0.getLastD "") := (hw z hzw).1
        have hsufchain : chainOk adj (z :: (suf ++ [endT])) = true := by
          have hall : chainOk adj ((pth ++ pre) ++ (z :: (suf ++ [endT]))) =
              true := by
            have he2 : (pth ++ pre) ++ (z :: (suf ++ [endT])) =
                pth ++ ext ++ [endT] := by
              rw [hdec]
              simp [List.append_assoc]
            rw [he2]
            exact hchain
          exact chainOk_append_right adj (pth ++ pre) _ hall
        have hchain2 : chainOk adj ((p0 ++ [z]) ++ suf ++ [endT]) = true := by
          have hg := chainOk_glue adj p0 z (suf ++ [endT]) hp0 hc0 hzl hsufchain
          have he3 : p0 ++ z :: (suf ++ [endT]) =
              (p0 ++ [z]) ++ suf ++ [endT] := by
            simp
          rw [← he3]
          exact hg
        have hmem2 : (p0 ++ [z], d0 + 1) ∈ rest ++ t :=
          List.mem_append_right rest (hwt z hzw)
        have hvis2 : ∀ x ∈ suf, x ∉ w ++ vis := by
          intro x hx hmem3
          have hxe : x ∈ ext := by
            rw [hdec]
            exact List.mem_append_right _ (List.mem_cons_of_mem z hx)
          rcases List.mem_append.mp hmem3 with h | h
          · exact hsuf x hx h
          · exact hvis x hxe h
        have hext2 : endT ∉ suf := by
          intro hx
          apply hext
          rw [hdec]
          exact List.mem_append_right _ (List.mem_cons_of_mem z hx)
        have hlens : ext.length = pre.length + 1 + suf.length := by
          rw [hdec, List.length_append, List.length_cons]
          omega
        have hd2 : (d0 + 1) + suf.length + 1 ≤ k := by omega
        obtain ⟨r, hr1, hr2⟩ := ih (rest ++ t) (w ++ vis) (ps ++ u)
          (p0 ++ [z]) (d0 + 1) suf hfuel2 hq2 hsort2 hbound2 hmem2 hchain2
          hvis2 hext2 hd2
        exact ⟨r, hr1, by omega⟩
      rcases List.mem_cons.mp hmem with hhead | htail
      · have hpp : pth = p0 := congrArg Prod.fst hhead
        have hdd : d = d0 := congrArg Prod.snd hhead
        cases ext with
        | nil =>
          have hendl : endT ∈ adjGet adj (p0.getLastD "") := by
            have hpe : chainOk adj (p0 ++ endT :: ([] : List String)) =
                true := by
              rw [← hpp]
              simpa using hchain
            exact chainOk_mid_edge adj p0 endT [] hp0 hpe
          have hrecd := hrec hendl
          obtain ⟨ext2, hext2⟩ := bfsLoop_paths_acc adj endT k fuel (rest ++ t)
            (w ++ vis) (ps ++ u)
          refine ⟨p0 ++ [endT], ?_, ?_⟩
          · rw [hext2]
            exact List.mem_append_left _ hrecd
          · rw [List.length_append, hlen0]
            simp only [List.length_singleton, List.length_nil]
            omega
        | cons x ext2 =>
          have hxl : x ∈ adjGet adj (p0.getLastD "") := by
            have hpk : chainOk adj (p0 ++ x :: (ext2 ++ [endT])) = true := by
              rw [← hpp]
              simpa only [List.cons_append, List.append_assoc] using hchain
            exact chainOk_mid_edge adj p0 x _ hp0 hpk
          have hxw : x ∈ w := by
            rcases hcov x hxl
                (fun hh => hext (hh ▸ List.mem_cons_self x ext2)) with h | h
            · exact h
            · exact absurd h (hvis x (List.mem_cons_self x ext2))
          exact hswitch ⟨x, List.mem_cons_self x ext2, hxw⟩
      · by_cases hint : ∃ y ∈ ext, y ∈ w
        · exact hswitch hint
        · refine ih (rest ++ t) (w ++ vis) (ps ++ u) pth d ext
            hfuel2 hq2 hsort2 hbound2 (List.mem_append_left t htail) hchain
            ?_ hext hd
          intro x hx hmem3
          rcases List.mem_append.mp hmem3 with h | h
          · exact hint ⟨x, hx, h⟩
          · exact hvis x hx h

/-- Unfolding of the join-path predicate into its four conditions. -/
lemma isJoinPath_iff (adj : List (String × List String)) (start endT : String)
    (p : List String) :
    isJoinPath adj start endT p = true ↔
      p ≠ [] ∧ p.head? = some start ∧ p.getLast? = some endT ∧
        chainOk adj p = true := by
  simp only [isJoinPath, Bool.and_eq_true, Bool.not_eq_true', decide_eq_true_eq]
  constructor
  · rintro ⟨⟨⟨h1, h2⟩, h3⟩, h4⟩
    refine ⟨?_, h2, h3, h4⟩
    intro hnil
    rw [hnil] at h1
    simp at h1
  · rintro ⟨h1, h2, h3, h4⟩
    refine ⟨⟨⟨?_, h2⟩, h3⟩, h4⟩
    cases p with
    | nil => exact absurd rfl h1
    | cons a l => rfl

/-- Any join path shrinks to a duplicate-free join path no longer than
it, by cutting the cycle between two occurrences of a repeated node. -/
lemma isJoinPath_trim (adj : List (String × List String))
    (start endT : String) :
    ∀ (n : Nat) (q : List String), q.length ≤ n →
      isJoinPath adj start endT q = true →
      ∃ p, isJoinPath adj start endT p = true ∧ p.length ≤ q.length ∧ p.Nodup
  | 0, q, hlen, hq => by
    obtain ⟨hne, -, -, -⟩ := (isJoinPath_iff adj start endT q).mp hq
    have := List.length_pos.mpr hne
    omega
  | n + 1, q, hlen, hq => by
    by_cases hnd : q.Nodup
    · exact ⟨q, hq, le_refl _, hnd⟩
    · obtain ⟨a, A, B, C, hdec⟩ := exists_dup_decomp q hnd
      obtain ⟨hne, hh, hl, hc⟩ := (isJoinPath_iff adj start endT q).mp hq
      have hsplit1 : q = (A ++ [a]) ++ (B ++ a :: C) := by
        rw [hdec]
        simp
      have hsplit2 : q = (A ++ a :: B) ++ (a :: C) := by
        rw [hdec]
        simp
      have hcpre : chainOk adj (A ++ [a]) = true :=
        chainOk_append_left adj (A ++ [a]) (B ++ a :: C)
          (by rw [← hsplit1]; exact hc)
      have hcsuf : chainOk adj (a :: C) = true :=
        chainOk_append_right adj (A ++ a :: B) (a :: C)
          (by rw [← hsplit2]; exact hc)
      have hq' : isJoinPath adj start endT (A ++ a :: C) = true := by
        refine (isJoinPath_iff adj start endT _).mpr ⟨?_, ?_, ?_, ?_⟩
        · intro hnil
          cases A <;> simp at hnil
        · cases A with
          | nil =>
            rw [hdec] at hh
            simpa using hh
          | cons x A' =>
            rw [hdec] at hh
            simpa using hh
        · rw [List.getLast?_append_of_ne_nil _ (by simp)]
          rw [hsplit2, List.getLast?_append_of_ne_nil _ (by simp)] at hl
          exact hl
        · cases A with
          | nil => simpa using hcsuf
          | cons x A' =>
            have hA : (x :: A') ≠ [] := by simp
            have hcA : chainOk adj (x :: A') = true :=
              chainOk_append_left adj (x :: A') [a] hcpre
            have hedge : a ∈ adjGet adj ((x :: A').getLastD "") :=
              chainOk_mid_edge adj (x :: A') a [] hA hcpre
            exact chainOk_glue adj (x :: A') a C hA hcA hedge hcsuf
      have hshort : (A ++ a :: C).length < q.length := by
        rw [hdec]
        simp only [List.length_append, List.length_cons]
        omega
      obtain ⟨p, hp1, hp2, hp3⟩ := isJoinPath_trim adj start endT n
        (A ++ a :: C) (by omega) hq'
      exact ⟨p, hp1, by omega, hp3⟩

/-- Among the join paths from `start` to `endT`, as soon as one exists,
some duplicate-free one has minimal length. -/
lemma min_join_aux (adj : List (String × List String))
    (start endT : String) :
    ∀ (n : Nat) (q : List String), q.length ≤ n →
      isJoinPath adj start endT q = true →
      ∃ p, isJoinPath adj start endT p = true ∧ p.Nodup ∧
        ∀ q2, isJoinPath adj start endT q2 = true → p.length ≤ q2.length
  | 0, q, hlen, hq => by
    obtain ⟨hne, -, -, -⟩ := (isJoinPath_iff adj start endT q).mp hq
    have := List.length_pos.mpr hne
    omega
  | n + 1, q, hlen, hq => by
    by_cases hmin : ∀ q2, isJoinPath adj start endT q2 = true →
        q.length ≤ q2.length
    · obtain ⟨p, hp1, hp2, hp3⟩ := isJoinPath_trim adj start endT q.length q
        (le_refl _) hq
      exact ⟨p, hp1, hp3, fun q2 hq2 => le_trans hp2 (hmin q2 hq2)⟩
    · have hex : ∃ q2, isJoinPath adj start endT q2 = true ∧
          q2.length < q.length := by
        by_contra hno
        apply hmin
        intro q2 hq2
        by_contra hlt
        exact hno ⟨q2, hq2, by omega⟩
      obtain ⟨q2, hq2, hlt⟩ := hex
      exact min_join_aux adj start endT n q2 (by omega) hq2

/-- C6 (amended): for distinct resolvable endpoints, `find_join_path`
returns only join paths from source to target, each of at most `k` edges;
and as soon as some join path of at most `k` edges exists, the first
returned path is a join path of minimal length among all join paths.  The
original claim is refuted by `findJoinPath_shortest_claim_false`: it
promised a shortest path whenever any path at all exists, ignoring the
depth cutoff. -/
theorem findJoinPath_bounded_shortest (cache : MetadataCache)
    (fromTable toTable : String) (fromSchema toSchema : Option String)
    (k : Nat) (src dst : TableInfo)
    (hsrc : resolveTable cache fromTable fromSchema = some src)
    (hdst : resolveTable cache toTable toSchema = some dst)
    (hne : src.fullName ≠ dst.fullName) :
    (∀ p ∈ findJoinPath cache fromTable toTable fromSchema toSchema k,
        isJoinPath cache.adjacency src.fullName dst.fullName p = true ∧
          p.length ≤ k + 1) ∧
      (∀ q0, isJoinPath cache.adjacency src.fullName dst.fullName q0 = true →
          q0.length ≤ k + 1 →
        ∃ p, (findJoinPath cache fromTable toTable fromSchema toSchema
            k).head? = some p ∧
          isJoinPath cache.adjacency src.fullName dst.fullName p = true ∧
          ∀ q1, isJoinPath cache.adjacency src.fullName dst.fullName q1 =
            true → p.length ≤ q1.length) := by
  have hfj : findJoinPath cache fromTable toTable fromSchema toSchema k =
      bfsPaths cache.adjacency src.fullName dst.fullName k := by
    simp only [findJoinPath]
    rw [hsrc, hdst]
    simp [hne]
  have hentry : ∀ e ∈ [([src.fullName], 0)],
      entryOk cache.adjacency src.fullName dst.fullName e := by
    intro e he
    rw [List.mem_singleton.mp he]
    refine ⟨rfl, rfl, ?_, rfl⟩
    intro hmem
    exact hne (List.mem_singleton.mp hmem).symm
  constructor
  · intro p hp
    rw [hfj, bfsPaths] at hp
    have hp2 := (List.take_sublist 10 _).subset hp
    exact bfsLoop_sound cache.adjacency src.fullName dst.fullName k
      (bfsFuel cache.adjacency) [([src.fullName], 0)] [src.fullName] []
      hentry (by intro r2 hr2; simp at hr2) p hp2
  · intro q0 hq0 hq0len
    obtain ⟨pstar, hps, hpsnd, hpsmin⟩ := min_join_aux cache.adjacency
      src.fullName dst.fullName q0.length q0 (le_refl _) hq0
    obtain ⟨hne0, hh, hl, hc⟩ := (isJoinPath_iff _ _ _ _).mp hps
    obtain ⟨s0, rest, hps0⟩ : ∃ s0 rest, pstar = s0 :: rest := by
      cases pstar with
      | nil => exact absurd rfl hne0
      | cons a l => exact ⟨a, l, rfl⟩
    have hs0 : s0 = src.fullName := by
      rw [hps0] at hh
      simpa using hh
    have hrne : rest ≠ [] := by
      intro hnil
      rw [hps0, hnil] at hl
      have hsd : s0 = dst.fullName := by simpa using hl
      exact hne (by rw [← hs0]; exact hsd)
    have hlast : rest.getLast hrne = dst.fullName := by
      rw [hps0] at hl
      have h3 : s0 :: rest = [s0] ++ rest := rfl
      rw [h3, List.getLast?_append_of_ne_nil _ hrne,
        List.getLast?_eq_getLast rest hrne] at hl
      simpa using hl
    have hrest : rest = rest.dropLast ++ [dst.fullName] := by
      rw [← hlast]
      exact (List.dropLast_append_getLast hrne).symm
    have hstar2 : pstar = src.fullName :: (rest.dropLast ++ [dst.fullName]) := by
      rw [hps0, hs0, ← hrest]
    have hchain : chainOk cache.adjacency
        (([src.fullName] ++ rest.dropLast) ++ [dst.fullName]) = true := by
      have he5 : ([src.fullName] ++ rest.dropLast) ++ [dst.fullName] =
          pstar := by
        rw [hstar2]
        simp
      rw [he5]
      exact hc
    have hnd2 : s0 ∉ rest ∧ rest.Nodup := by
      rw [hps0] at hpsnd
      exact List.nodup_cons.mp hpsnd
    have hvis0 : ∀ x ∈ rest.dropLast, x ∉ ([src.fullName] : List String) := by
      intro x hx hmem
      have hxr : x ∈ rest := (List.dropLast_sublist rest).subset hx
      have hxs : x = src.fullName := List.mem_singleton.mp hmem
      apply hnd2.1
      rw [← hs0] at hxs
      rw [← hxs]
      exact hxr
    have hext0 : dst.fullName ∉ rest.dropLast := by
      have hrnd := hnd2.2
      rw [hrest] at hrnd
      rcases List.nodup_append.mp hrnd with ⟨-, -, hdisj⟩
      intro hmem
      exact hdisj hmem (List.mem_singleton.mpr rfl)
    have hplen : pstar.length = rest.dropLast.length + 2 := by
      have hrl : rest.length = rest.dropLast.length + 1 := by
        conv_lhs => rw [hrest]
        simp
      rw [hps0, List.length_cons, hrl]
    have hdbound : 0 + rest.dropLast.length + 1 ≤ k := by
      have h1 := hpsmin q0 hq0
      omega
    have hfuel : ([([src.fullName], 0)] :
        List (List String × Nat)).length +
          unvisitedCount cache.adjacency [src.fullName] ≤
        bfsFuel cache.adjacency := by
      have h2 := unvisitedCount_le cache.adjacency [src.fullName]
      rw [bfsFuel]
      simp only [List.length_singleton]
      omega
    obtain ⟨r, hrmem, hrlen⟩ := bfsLoop_pending cache.adjacency src.fullName
      dst.fullName k (bfsFuel cache.adjacency) [([src.fullName], 0)]
      [src.fullName] [] [src.fullName] 0 rest.dropLast hfuel hentry
      (by simp)
      (by
        intro e he e0 he0
        rw [List.mem_singleton.mp he]
        exact Nat.zero_le _)
      (List.mem_singleton.mpr rfl) hchain hvis0 hext0 hdbound
    have hsound := bfsLoop_sound cache.adjacency src.fullName dst.fullName k
      (bfsFuel cache.adjacency) [([src.fullName], 0)] [src.fullName] []
      hentry (by intro r2 hr2; simp at hr2)
    have hsorted := bfsLoop_rec_sorted cache.adjacency src.fullName
      dst.fullName k (bfsFuel cache.adjacency) [([src.fullName], 0)]
      [src.fullName] [] hentry (by simp)
      (by
        intro e he e0 he0
        rw [List.mem_singleton.mp he]
        exact Nat.zero_le _)
      (by simp) (by intro r2 hr2; simp at hr2)
    cases hL : bfsLoop cache.adjacency dst.fullName k
        (bfsFuel cache.adjacency) [([src.fullName], 0)] [src.fullName] [] with
    | nil =>
      rw [hL] at hrmem
      exact absurd hrmem (by simp)
    | cons h0 tl =>
      have hh0valid := hsound h0 (by rw [hL]; exact List.mem_cons_self _ _)
      have hh0min : ∀ q1, isJoinPath cache.adjacency src.fullName dst.fullName
          q1 = true → h0.length ≤ q1.length := by
        intro q1 hq1
        have hr_in : r ∈ h0 :: tl := by
          rw [← hL]
          exact hrmem
        have hh0r : h0.length ≤ r.length := by
          rcases List.mem_cons.mp hr_in with h | h
          · rw [h]
          · rw [hL] at hsorted
            exact (List.pairwise_cons.mp hsorted).1 r h
        have h2 := hpsmin q1 hq1
        omega
      refine ⟨h0, ?_, hh0valid.1, hh0min⟩
      rw [hfj, bfsPaths, hL]
      rfl

/-- Witness for the amended C6: on the three-table example with the
default depth 3, the search announces `Erp.A`–`Erp.C`–`Erp.B` as its
first path, which is a shortest join path. -/
theorem findJoinPath_bounded_shortest_witness :
    ∃ p, (findJoinPath (loadCache c6Tables c6Fks) "A" "B" none none
        3).head? = some p ∧
      isJoinPath (loadCache c6Tables c6Fks).adjacency "Erp.A" "Erp.B" p =
        true ∧
      ∀ q1, isJoinPath (loadCache c6Tables c6Fks).adjacency "Erp.A" "Erp.B"
        q1 = true → p.length ≤ q1.length :=
  (findJoinPath_bounded_shortest (loadCache c6Tables c6Fks) "A" "B" none none
    3 ⟨"Erp", "A", "T"⟩ ⟨"Erp", "B", "T"⟩ (by decide) (by decide)
    (by decide)).2 ["Erp.A", "Erp.C", "Erp.B"] (by decide) (by decide)

end EpicorMCP
